import Mathlib

/-!
# Verification of the wryware core engines

A shallow embedding, in Lean 4, of the core data structures of the
benjamn/wryware repository (Trie, prototype-handler registry, Task,
Supertext/Subtext, deep equality, KeySetMap, Canon), together with
theorems settling the specification claims about them.

Machine state is threaded explicitly: each JavaScript method that mutates
an object becomes a Lean function from the old state to a pair of result
and new state.  JavaScript reference identity is modelled by numeric ids,
and `WeakMap`/`Map` instances by association lists keyed by decidable
equality.
-/

/-! ## Trie (packages/trie/src/trie.ts)

`Trie.lookupArray` walks the trie creating child tries as needed and then
returns `node.data || (node.data = this.makeData(slice.call(array)))`.

The source stores the children of each node in two lazily-created maps
(`weak` for object keys when `weakness` is on, `strong` otherwise); a key
of a given kind is only ever stored in, and looked up from, the map that
`getChildTrie` selects for it, so the pair of maps behaves exactly like a
single map keyed by the key itself.  We therefore represent the whole trie
as a finite map from key paths to the `data` stored at the node addressed
by that path; nodes whose `data` is still unset are simply absent.

Because `makeData` is an arbitrary caller-supplied closure (which may have
mutable state), it is modelled as a function of the number of previous
invocations and the path; the state records how often it has been invoked.
JavaScript truthiness of the stored data (the `node.data ||` test) is an
explicit parameter `truthy`. -/

namespace WryTrie

/-- A key passed to `Trie.lookup(Array)`: an object reference (identified
by a numeric id, eligible for the weak map) or a primitive value. -/
inductive Key where
  | obj (id : Nat)
  | prim (v : Int)
deriving DecidableEq, Repr

/-- `isObjRef` from trie.ts (typeof-based test selecting the weak map). -/
def isObjRef : Key → Bool
  | .obj _ => true
  | .prim _ => false

/-- The state of one `Trie` instance: the data stored at each materialized
node (addressed by its key path from the root), plus the number of times
`makeData` has been invoked so far. -/
structure TrieState (D : Type) where
  entries : List (List Key × D)
  calls : Nat
deriving Repr

/-- A freshly constructed `new Trie(weakness, makeData)`. -/
def TrieState.empty (D : Type) : TrieState D := ⟨[], 0⟩

/-- Association-list lookup for the node data addressed by `path`. -/
def findData {D : Type} (entries : List (List Key × D)) (path : List Key) :
    Option D :=
  match entries with
  | [] => none
  | (p, d) :: rest => if p = path then some d else findData rest path

/-- Overwrite (or create) the data stored at `path`. -/
def setData {D : Type} (entries : List (List Key × D)) (path : List Key)
    (d : D) : List (List Key × D) :=
  match entries with
  | [] => [(path, d)]
  | (p, d0) :: rest =>
    if p = path then (p, d) :: rest else (p, d0) :: setData rest path d

/-- `Trie.prototype.lookupArray(array)`: walk to the node addressed by
`array` (creating children as needed) and return
`node.data || (node.data = this.makeData(slice.call(array)))`.
A stored value that is JavaScript-falsy fails the `node.data ||` test, so
`makeData` runs again and its result overwrites the stored data. -/
def lookupArray {D : Type} (truthy : D → Bool) (make : Nat → List Key → D)
    (st : TrieState D) (path : List Key) : D × TrieState D :=
  match findData st.entries path with
  | some d =>
    if truthy d then (d, st)
    else
      let d' := make st.calls path
      (d', ⟨setData st.entries path d', st.calls + 1⟩)
  | none =>
    let d' := make st.calls path
    (d', ⟨setData st.entries path d', st.calls + 1⟩)

/-- `Trie.prototype.lookup(...array)` simply delegates to `lookupArray`. -/
def lookup {D : Type} (truthy : D → Bool) (make : Nat → List Key → D)
    (st : TrieState D) (path : List Key) : D × TrieState D :=
  lookupArray truthy make st path

theorem findData_setData_self {D : Type} (entries : List (List Key × D))
    (path : List Key) (d : D) :
    findData (setData entries path d) path = some d := by
  induction entries with
  | nil => simp [setData, findData]
  | cons hd tl ih =>
    obtain ⟨p, d0⟩ := hd
    by_cases h : p = path
    · simp [setData, findData, h]
    · simp [setData, findData, h, ih]

/-- C9. The claim quantifies over every `makeData` function, but the
`node.data || (node.data = this.makeData(...))` idiom re-invokes `makeData`
whenever the stored payload is JavaScript-falsy.  With a stateful
`makeData` closure returning `0` on its first call and `1` on its second,
two lookups of the very same one-key path return different payloads and
`makeData` runs twice for a single distinct path. -/
theorem trie_lookupArray_falsy_counterexample :
    (lookupArray (fun d : Int => decide (d ≠ 0)) (fun n _ => (n : Int))
        (TrieState.empty Int) [Key.prim 7]).1 ≠
      (lookupArray (fun d : Int => decide (d ≠ 0)) (fun n _ => (n : Int))
        (lookupArray (fun d : Int => decide (d ≠ 0)) (fun n _ => (n : Int))
          (TrieState.empty Int) [Key.prim 7]).2 [Key.prim 7]).1 ∧
    (lookupArray (fun d : Int => decide (d ≠ 0)) (fun n _ => (n : Int))
        (lookupArray (fun d : Int => decide (d ≠ 0)) (fun n _ => (n : Int))
          (TrieState.empty Int) [Key.prim 7]).2 [Key.prim 7]).2.calls = 2 := by
  decide

/-- C9 (amended).  Provided every value `makeData` produces is
JavaScript-truthy, a repeated `lookupArray` with an element-wise identical
path returns the identical payload and leaves the trie (including the
`makeData` invocation count) unchanged, so `makeData` is invoked at most
once per distinct path; `lookup` delegates to `lookupArray`. -/
theorem trie_lookupArray_idempotent {D : Type} (truthy : D → Bool)
    (make : Nat → List Key → D) (hmake : ∀ n p, truthy (make n p) = true)
    (st : TrieState D) (path : List Key) :
    lookupArray truthy make (lookupArray truthy make st path).2 path =
      ((lookupArray truthy make st path).1,
        (lookupArray truthy make st path).2) ∧
    lookup truthy make st path = lookupArray truthy make st path := by
  refine ⟨?_, rfl⟩
  unfold lookupArray
  rcases h : findData st.entries path with _ | d
  · simp [h, findData_setData_self, hmake]
  · by_cases ht : truthy d
    · simp [h, ht]
    · simp [h, ht, findData_setData_self, hmake]

/-- Witness for `trie_lookupArray_idempotent` at a concrete trie. -/
theorem trie_lookupArray_idempotent_witness :
    (∀ (n : Nat) (p : List Key),
      (fun _ : Int => true) ((fun (_ : Nat) (_ : List Key) => (37 : Int)) n p)
        = true) ∧
    (lookupArray (fun _ : Int => true) (fun _ _ => (37 : Int))
        (lookupArray (fun _ : Int => true) (fun _ _ => (37 : Int))
          (TrieState.empty Int) [Key.obj 1]).2 [Key.obj 1] =
      ((lookupArray (fun _ : Int => true) (fun _ _ => (37 : Int))
          (TrieState.empty Int) [Key.obj 1]).1,
        (lookupArray (fun _ : Int => true) (fun _ _ => (37 : Int))
          (TrieState.empty Int) [Key.obj 1]).2)) :=
  ⟨fun _ _ => rfl,
    (trie_lookupArray_idempotent (fun _ : Int => true) (fun _ _ => (37 : Int))
      (fun _ _ => rfl) (TrieState.empty Int) [Key.obj 1]).1⟩

end WryTrie

/-! ## Prototype handler registry (packages/canon/src/handlers.ts)

`PrototypeHandlerMap` keeps a `Map` from prototype identities to frozen
handler records and a `usedPrototypes` set.  `lookup(instance)` records
`Object.getPrototypeOf(instance)` in `usedPrototypes` before consulting
the map; `enable(prototype, handlers)` throws when the prototype is
already in `usedPrototypes` and otherwise stores the handlers.

Prototype identities are modelled by an explicit type (the three built-in
prototypes plus custom ones); handler records are opaque and modelled by
their identity (a number). -/

namespace WryHandlers

/-- A JavaScript prototype identity as used for keying the registry. -/
inductive Proto where
  | nullProto
  | objectProto
  | arrayProto
  | custom (id : Nat)
deriving DecidableEq, Repr

/-- Association-list lookup (`Map.prototype.get`). -/
def findA {K V : Type} [DecidableEq K] : List (K × V) → K → Option V
  | [], _ => none
  | (k, v) :: rest, key => if k = key then some v else findA rest key

/-- Association-list update (`Map.prototype.set`). -/
def setA {K V : Type} [DecidableEq K] : List (K × V) → K → V → List (K × V)
  | [], key, v => [(key, v)]
  | (k, v0) :: rest, key, v =>
    if k = key then (k, v) :: rest else (k, v0) :: setA rest key v

/-- The mutable state of a `PrototypeHandlerMap`: the prototype-to-handlers
map and the set of prototypes ever passed to `lookup`. -/
structure HandlerMapState where
  map : List (Proto × Nat)
  used : List Proto
deriving Repr

/-- `enable(prototype, handlers)`: throws if the prototype has already
been looked up, else records the (frozen) handlers for it. -/
def enable (st : HandlerMapState) (proto : Proto) (h : Nat) :
    Except String HandlerMapState :=
  if proto ∈ st.used then
    .error "Cannot enable prototype that has already been looked up"
  else
    .ok { st with map := setA st.map proto h }

/-- `lookup(instance)`: adds the instance's prototype to `usedPrototypes`
and returns the handlers registered for it, if any. -/
def lookup (st : HandlerMapState) (proto : Proto) :
    Option Nat × HandlerMapState :=
  (findA st.map proto, { st with used := proto :: st.used })

/-- One externally visible operation on the registry.  A failed `enable`
throws before mutating the map, leaving the state unchanged. -/
inductive Ev where
  | enable (p : Proto) (h : Nat)
  | lookup (p : Proto)

def step (st : HandlerMapState) : Ev → HandlerMapState
  | .enable p h =>
    match enable st p h with
    | .ok st' => st'
    | .error _ => st
  | .lookup p => (lookup st p).2

def run (st : HandlerMapState) (evs : List Ev) : HandlerMapState :=
  evs.foldl step st

/-- The prototypes consulted by the `lookup` events of a trace. -/
def lookedUp : List Ev → List Proto
  | [] => []
  | .lookup p :: rest => p :: lookedUp rest
  | .enable _ _ :: rest => lookedUp rest

/-- The constructor enables the built-in handlers (Array.prototype, null,
Object.prototype) on a fresh state whose `usedPrototypes` is empty. -/
def initState (arrayH objH : Nat) : HandlerMapState :=
  { map := [(Proto.arrayProto, arrayH), (Proto.nullProto, objH),
            (Proto.objectProto, objH)],
    used := [] }

theorem run_used (st : HandlerMapState) (evs : List Ev) (p : Proto) :
    p ∈ (run st evs).used ↔ p ∈ st.used ∨ p ∈ lookedUp evs := by
  induction evs generalizing st with
  | nil => simp [run, lookedUp]
  | cons e rest ih =>
    cases e with
    | enable q h =>
      show p ∈ (run (step st (.enable q h)) rest).used ↔ _
      have hstep : (step st (.enable q h)).used = st.used := by
        simp only [step, enable]
        by_cases hq : q ∈ st.used <;> simp [hq]
      rw [ih, hstep]
      simp [lookedUp]
    | lookup q =>
      show p ∈ (run (step st (.lookup q)) rest).used ↔ _
      rw [ih]
      simp only [step, lookup, lookedUp, List.mem_cons]
      tauto

theorem findA_setA_self {K V : Type} [DecidableEq K] (m : List (K × V))
    (k : K) (v : V) : findA (setA m k v) k = some v := by
  induction m with
  | nil => simp [setA, findA]
  | cons hd tl ih =>
    obtain ⟨k0, v0⟩ := hd
    by_cases h : k0 = k
    · simp [setA, findA, h]
    · simp [setA, findA, h, ih]

/-- C3.  Over any operation trace from a freshly constructed registry,
`enable(p, handlers)` fails with an error exactly when some earlier
`lookup` consulted the registry for an instance whose prototype is `p`;
otherwise it succeeds, and the new state records the handlers for `p`. -/
theorem handlers_enable_after_use (arrayH objH : Nat) (evs : List Ev)
    (p : Proto) (h : Nat) :
    (enable (run (initState arrayH objH) evs) p h =
        .error "Cannot enable prototype that has already been looked up" ↔
      p ∈ lookedUp evs) ∧
    (enable (run (initState arrayH objH) evs) p h =
        .ok { run (initState arrayH objH) evs with
                map := setA (run (initState arrayH objH) evs).map p h } ↔
      p ∉ lookedUp evs) ∧
    findA (setA (run (initState arrayH objH) evs).map p h) p = some h := by
  have hused : p ∈ (run (initState arrayH objH) evs).used ↔ p ∈ lookedUp evs := by
    rw [run_used]
    simp [initState]
  refine ⟨?_, ?_, findA_setA_self _ _ _⟩
  · unfold enable
    by_cases hc : p ∈ (run (initState arrayH objH) evs).used
    · simp [hc, hused.mp hc]
    · simp only [hc, if_false, reduceIte]
      constructor
      · intro hEq; cases hEq
      · intro habs; exact absurd (hused.mpr habs) hc
  · unfold enable
    by_cases hc : p ∈ (run (initState arrayH objH) evs).used
    · simp only [hc, if_true, reduceIte]
      constructor
      · intro hEq; cases hEq
      · intro habs; exact absurd (hused.mp hc) habs
    · simp only [hc, if_false, reduceIte]
      constructor
      · intro _; exact fun habs => hc (hused.mpr habs)
      · intro _; trivial

end WryHandlers

/-! ## Task (packages/task, src/unnamed/part_001)

`Task` is a promise-shaped settlement container with four states
(`UNSETTLED → SETTLING → RESOLVED | REJECTED`).  `settle` ignores every
call once the state has left `UNSETTLED`; `resolve` with a `PromiseLike`
moves to `SETTLING` and subscribes `finalize` to the thenable's outcome;
otherwise `finalize` records the terminal state and result immediately.

Values are modelled by `TaskValue`: either a plain (non-thenable) value or
a thenable characterised by its eventual behaviour — which of its two
`then` callbacks it will call, and with what value (`isPromiseLike` only
checks for a callable `then`).  Callback results in `then` are modelled by
`CbResult`: a normal return or a thrown exception. -/

namespace WryTask

/-- A JavaScript value handed to `resolve`/`reject`: `isPromiseLike`
distinguishes thenables (which have a callable `then`) from plain values. -/
inductive TaskValue where
  | plain (v : Int)
  | thenable (fulfills : Bool) (result : TaskValue)
deriving DecidableEq, Repr

def isPromiseLike : TaskValue → Bool
  | .thenable _ _ => true
  | .plain _ => false

/-- The `State` enum together with the private `resultOrError` field; a
`SETTLING` task remembers the adopted thenable's eventual outcome. -/
inductive TaskState where
  | unsettled
  | settling (fulfills : Bool) (result : TaskValue)
  | resolved (v : TaskValue)
  | rejected (e : TaskValue)
deriving DecidableEq, Repr

/-- The tentative state passed to `settle` (`State.RESOLVED` or
`State.REJECTED`). -/
inductive Tentative where
  | resolvedT
  | rejectedT
deriving DecidableEq, Repr

/-- `Task.prototype.settle(tentativeState, resultOrError)`: only an
`UNSETTLED` task reacts; resolving with a thenable moves to `SETTLING`
(adopting the thenable's outcome), anything else finalizes immediately. -/
def settle (st : TaskState) (tentative : Tentative) (arg : TaskValue) :
    TaskState :=
  match st with
  | .unsettled =>
    match tentative, arg with
    | .resolvedT, .thenable f r => .settling f r
    | .resolvedT, .plain v => .resolved (.plain v)
    | .rejectedT, a => .rejected a
  | s => s

/-- The adopted thenable eventually calls `finalize(RESOLVED, result)` or
`finalize(REJECTED, error)` on a `SETTLING` task. -/
def deliver : TaskState → TaskState
  | .settling true r => .resolved r
  | .settling false r => .rejected r
  | s => s

/-- External events in a task's life: public `resolve`/`reject` calls and
the adopted thenable's single delivery. -/
inductive TaskEv where
  | resolveEv (arg : TaskValue)
  | rejectEv (arg : TaskValue)
  | deliverEv

def taskStep (st : TaskState) : TaskEv → TaskState
  | .resolveEv arg => settle st .resolvedT arg
  | .rejectEv arg => settle st .rejectedT arg
  | .deliverEv => deliver st

/-- The terminal states. -/
def terminal : TaskState → Bool
  | .resolved _ => true
  | .rejected _ => true
  | _ => false

/-- C8.  `resolve`/`reject` are idempotent (the first settling call wins
and later `settle` calls leave state and result untouched); `resolve`
with a thenable moves `UNSETTLED` to `SETTLING` and the task adopts the
thenable's eventual outcome; and no event whatsoever moves a task out of
a terminal `RESOLVED`/`REJECTED` state. -/
theorem task_settle_idempotent_and_terminal :
    (∀ (st : TaskState) (t : Tentative) (arg : TaskValue),
      st ≠ .unsettled → settle st t arg = st) ∧
    (∀ (f : Bool) (r : TaskValue),
      settle .unsettled .resolvedT (.thenable f r) = .settling f r ∧
      deliver (.settling f r) =
        (if f then TaskState.resolved r else TaskState.rejected r)) ∧
    (∀ (st : TaskState) (ev : TaskEv),
      terminal st = true → taskStep st ev = st) := by
  refine ⟨?_, ?_, ?_⟩
  · intro st t arg hne
    cases st with
    | unsettled => exact absurd rfl hne
    | settling f r => rfl
    | resolved v => rfl
    | rejected e => rfl
  · intro f r
    exact ⟨rfl, by cases f <;> rfl⟩
  · intro st ev hterm
    cases st with
    | unsettled => exact absurd hterm (by simp [terminal])
    | settling f r => exact absurd hterm (by simp [terminal])
    | resolved v => cases ev <;> rfl
    | rejected e => cases ev <;> rfl

/-- Witness for `task_settle_idempotent_and_terminal`. -/
theorem task_settle_idempotent_and_terminal_witness :
    (TaskState.resolved (.plain 1) ≠ TaskState.unsettled) ∧
    settle (.resolved (.plain 1)) .rejectedT (.plain 2) =
      .resolved (.plain 1) :=
  ⟨by decide,
    task_settle_idempotent_and_terminal.1 (.resolved (.plain 1)) .rejectedT
      (.plain 2) (by decide)⟩

/-- The result of a continuation passed to `then`: a normal return value
or a thrown exception. -/
inductive CbResult where
  | ret (v : TaskValue)
  | throws (e : TaskValue)

/-- A record that a continuation was invoked (and with which argument)
during a call to `then`. -/
inductive CallRec where
  | calledRes (v : TaskValue)
  | calledRej (e : TaskValue)
deriving DecidableEq, Repr

/-- `Task.prototype.then(onResolved, onRejected)`.  The returned pair is
(the list of continuation invocations performed synchronously during the
`then` call itself, the state of the child task when `then` returns).

* `UNSETTLED`/`SETTLING`: the child is fed by a promise conversion, so no
  continuation runs synchronously and the child is still unsettled.
* `RESOLVED`: the child executor runs `task.resolve(onResolved ?
  onResolved(result) : result)` synchronously; an exception thrown by
  `onResolved` is caught by the child `Task` constructor, which rejects
  the child instead of propagating.
* `REJECTED`: symmetric, with `onRejected`; when no `onRejected` is given
  the child is resolved with the stored error value. -/
def thenOp (st : TaskState)
    (onResolved onRejected : Option (TaskValue → CbResult)) :
    List CallRec × TaskState :=
  match st with
  | .unsettled => ([], .unsettled)
  | .settling _ _ => ([], .unsettled)
  | .resolved v =>
    match onResolved with
    | some f =>
      match f v with
      | .ret r => ([.calledRes v], settle .unsettled .resolvedT r)
      | .throws e => ([.calledRes v], settle .unsettled .rejectedT e)
    | none => ([], settle .unsettled .resolvedT v)
  | .rejected err =>
    match onRejected with
    | some f =>
      match f err with
      | .ret r => ([.calledRej err], settle .unsettled .resolvedT r)
      | .throws e => ([.calledRej err], settle .unsettled .rejectedT e)
    | none => ([], settle .unsettled .resolvedT err)

/-- The synchronous continuation log of a sequence of `then` calls
registered one after the other on the same task (`then` never mutates the
parent task, so each call sees the same state). -/
def thenSeqLog (st : TaskState)
    (cbs : List (Option (TaskValue → CbResult) ×
      Option (TaskValue → CbResult))) : List CallRec :=
  (cbs.map fun p => (thenOp st p.1 p.2).1).flatten

/-- C2.  On a task already in a terminal state, `then` invokes the
corresponding continuation synchronously — the invocation record is
produced by the `then` call itself, before it returns — whereas `then` on
an `UNSETTLED` or `SETTLING` task invokes nothing synchronously; and the
combined log of successive `then` calls on the same settled task lists
exactly one invocation per call, in registration order. -/
theorem task_then_settled_synchronous
    (v e : TaskValue) (f g : TaskValue → CbResult)
    (onRej onRes : Option (TaskValue → CbResult))
    (cbs : List (Option (TaskValue → CbResult) ×
      Option (TaskValue → CbResult)))
    (hall : ∀ p ∈ cbs, p.1.isSome = true) :
    (thenOp (.resolved v) (some f) onRej).1 = [.calledRes v] ∧
    (thenOp (.rejected e) onRes (some g)).1 = [.calledRej e] ∧
    (thenOp .unsettled onRes onRej).1 = [] ∧
    thenSeqLog (.resolved v) cbs = cbs.map (fun _ => .calledRes v) := by
  refine ⟨?_, ?_, rfl, ?_⟩
  · show (match f v with
      | .ret r => ([CallRec.calledRes v], settle .unsettled .resolvedT r)
      | .throws e' =>
        ([CallRec.calledRes v], settle .unsettled .rejectedT e')).1 = _
    cases f v <;> rfl
  · show (match g e with
      | .ret r => ([CallRec.calledRej e], settle .unsettled .resolvedT r)
      | .throws e' =>
        ([CallRec.calledRej e], settle .unsettled .rejectedT e')).1 = _
    cases g e <;> rfl
  · revert hall
    induction cbs with
    | nil => intro _; rfl
    | cons q rest ih =>
      intro hall
      have hq := hall q (List.mem_cons_self q rest)
      have hrest : ∀ p ∈ rest, p.1.isSome = true := fun p hp =>
        hall p (List.mem_cons_of_mem q hp)
      have htail := ih hrest
      have hhead : (thenOp (.resolved v) q.1 q.2).1 = [.calledRes v] := by
        rcases hq1 : q.1 with _ | fp
        · rw [hq1] at hq; simp at hq
        · show (match fp v with
            | .ret r => ([CallRec.calledRes v], settle .unsettled .resolvedT r)
            | .throws e' =>
              ([CallRec.calledRes v], settle .unsettled .rejectedT e')).1 = _
          cases fp v <;> rfl
      show (thenOp (.resolved v) q.1 q.2).1 ++
          thenSeqLog (.resolved v) rest = _
      rw [hhead, htail]
      rfl

/-- Witness for `task_then_settled_synchronous`. -/
theorem task_then_settled_synchronous_witness :
    (∀ p ∈ ([((some fun _ => CbResult.ret (.plain 5)), none)] :
        List (Option (TaskValue → CbResult) ×
          Option (TaskValue → CbResult))), p.1.isSome = true) ∧
    (thenOp (.resolved (.plain 1))
        (some fun _ => CbResult.ret (.plain 5)) none).1 =
      [.calledRes (.plain 1)] :=
  ⟨by intro p hp; simp at hp; rw [hp]; rfl,
    (task_then_settled_synchronous (.plain 1) (.plain 2)
      (fun _ => CbResult.ret (.plain 5)) (fun _ => CbResult.ret (.plain 6))
      none none [((some fun _ => CbResult.ret (.plain 5)), none)]
      (by intro p hp; simp at hp; rw [hp]; rfl)).1⟩

/-- C10.  When a settled task's continuation throws, `then` does not
propagate the exception (the `thenOp` embedding returns normally): the
child `Task` constructor catches the executor exception and rejects the
child with the thrown value. -/
theorem task_then_throwing_continuation
    (v e thrown : TaskValue) (f g : TaskValue → CbResult)
    (onRej onRes : Option (TaskValue → CbResult))
    (hf : f v = .throws thrown) (hg : g e = .throws thrown) :
    thenOp (.resolved v) (some f) onRej =
      ([.calledRes v], .rejected thrown) ∧
    thenOp (.rejected e) onRes (some g) =
      ([.calledRej e], .rejected thrown) := by
  constructor
  · show (match f v with
      | .ret r => ([CallRec.calledRes v], settle .unsettled .resolvedT r)
      | .throws e' =>
        ([CallRec.calledRes v], settle .unsettled .rejectedT e')) = _
    rw [hf]
    rfl
  · show (match g e with
      | .ret r => ([CallRec.calledRej e], settle .unsettled .resolvedT r)
      | .throws e' =>
        ([CallRec.calledRej e], settle .unsettled .rejectedT e')) = _
    rw [hg]
    rfl

/-- Witness for `task_then_throwing_continuation`. -/
theorem task_then_throwing_continuation_witness :
    ((fun _ : TaskValue => CbResult.throws (.plain 9)) (.plain 1) =
      CbResult.throws (.plain 9)) ∧
    thenOp (.resolved (.plain 1))
        (some fun _ => CbResult.throws (.plain 9)) none =
      ([.calledRes (.plain 1)], .rejected (.plain 9)) :=
  ⟨rfl,
    (task_then_throwing_continuation (.plain 1) (.plain 2) (.plain 9)
      (fun _ => CbResult.throws (.plain 9))
      (fun _ => CbResult.throws (.plain 9)) none none rfl rfl).1⟩

end WryTask

/-! ## Supertext / Subtext (packages/supertext/src)

A `Supertext` has a frozen `parents` array (fixed at construction; the
`lookup` helper never creates Supertext objects, so parents are modelled
as a pure function of the supertext's id) and a private map used both for
`branch` writes and as a lookup cache.  `lookup(supertext, subtext)`
returns the cached entry when present; returns `MISSING` without caching
when the parents array is empty; and otherwise pre-caches `MISSING` (the
cycle guard), collects the non-`MISSING` parent values in order,
deduplicates them preferring the rightmost occurrence, folds them through
`subtext.merge` via `Array.prototype.reduce`, caches and returns the
result.

`Supertext.merge(...parents)` deduplicates its argument list preferring
the rightmost occurrence of each parent and interns the result through
`supertextMergeTrie`, a `Trie` keyed by the deduplicated parent sequence.

Supertext ids and Subtext ids are natural numbers; user values are
integers; the `MISSING` sentinel is a separate constructor of `Cached`,
distinct from every user value by construction. -/

namespace WrySupertext

open WryHandlers (findA setA findA_setA_self)

/-- A value stored in a Supertext's internal map: either the unique
`MISSING` sentinel or a user value. -/
inductive Cached where
  | missing
  | val (v : Int)
deriving DecidableEq, Repr

/-- `deduplicateArrayPreferringRightmost` (supertext/src/helpers.ts):
keep the rightmost occurrence of each element, preserving the relative
order of those rightmost occurrences ([a, b, a] becomes [b, a], and
[a, b, c, b, b, a] becomes [c, b, a]).  The source fills the result array
right-to-left, taking each value the first time it is seen from the right
(deleting it from the occurrence set); this recursion does exactly that. -/
def dedupRight {α : Type} [DecidableEq α] : List α → List α
  | [] => []
  | x :: rest =>
    let r := dedupRight rest
    if x ∈ r then r else x :: r

/-- `Array.prototype.reduce(merge)` on a non-empty array. -/
def reduceMerge (f : Int → Int → Int) : List Int → Int
  | [] => 0
  | v :: vs => vs.foldl f v

/-- The lookup/branch map of all Supertext objects, keyed by
(supertext id, subtext id). -/
abbrev SupMaps := List ((Nat × Nat) × Cached)

/-- The tail of `lookup` once the inherited parent values have been
collected: if every parent reported `MISSING`, return `MISSING` (the map
entry was already pre-set to `MISSING`); otherwise deduplicate the
inherited values preferring the rightmost occurrence, fold them through
`subtext.merge`, cache the result and return it. -/
def finishLookup (f : Int → Int → Int) (s t : Nat) :
    List Int × SupMaps → Cached × SupMaps
  | ([], mp) => (.missing, mp)
  | (v :: vs, mp) =>
    (.val (reduceMerge f (dedupRight (v :: vs))),
      setA mp (s, t) (.val (reduceMerge f (dedupRight (v :: vs)))))

mutual

/-- The recursive `lookup(supertext, subtext)` helper from supertext.ts.
`m t` is `subtext.merge` for the subtext with id `t`; `par s` is the
frozen parents array of the supertext with id `s`.  Returns the value
(`MISSING` or a user value) together with the updated maps.  The `fuel`
argument only bounds the recursion depth; every theorem supplies enough
fuel for the (acyclic) parent hierarchy. -/
def lookupS (m : Nat → Int → Int → Int) (par : Nat → List Nat) :
    Nat → SupMaps → Nat → Nat → Cached × SupMaps
  | 0, mp, _, _ => (.missing, mp)
  | fuel + 1, mp, s, t =>
    match findA mp (s, t) with
    | some c => (c, mp)
    | none =>
      match par s with
      | [] => (.missing, mp)
      | p :: ps =>
        finishLookup (m t) s t
          (collectS m par fuel (setA mp (s, t) .missing) (p :: ps) t)
termination_by fuel _ _ _ => (fuel, 0)

/-- The `for (let p = 0; ...)` loop in `lookup`: read every parent in
order and collect only the non-`MISSING` inherited values. -/
def collectS (m : Nat → Int → Int → Int) (par : Nat → List Nat) :
    Nat → SupMaps → List Nat → Nat → List Int × SupMaps
  | _, mp, [], _ => ([], mp)
  | fuel, mp, p :: ps, t =>
    let r := lookupS m par fuel mp p t
    let rest := collectS m par fuel r.2 ps t
    match r.1 with
    | .missing => (rest.1, rest.2)
    | .val v => (v :: rest.1, rest.2)
termination_by fuel _ ps _ => (fuel, ps.length + 1)

end

theorem findA_setA_ne {K V : Type} [DecidableEq K] (m : List (K × V))
    (key k : K) (v : V) (h : k ≠ key) :
    findA (setA m key v) k = findA m k := by
  induction m with
  | nil => simp [setA, findA, Ne.symm h]
  | cons hd tl ih =>
    obtain ⟨k0, v0⟩ := hd
    by_cases hk : k0 = key
    · subst hk
      simp [setA, findA, Ne.symm h]
    · simp [setA, findA, hk, ih]

theorem lookupS_zero (m : Nat → Int → Int → Int) (par : Nat → List Nat)
    (mp : SupMaps) (s t : Nat) : lookupS m par 0 mp s t = (.missing, mp) := by
  rw [lookupS]

theorem collectS_nil (m : Nat → Int → Int → Int) (par : Nat → List Nat)
    (fuel : Nat) (mp : SupMaps) (t : Nat) :
    collectS m par fuel mp [] t = ([], mp) := by
  rw [collectS]

theorem lookupS_succ (m : Nat → Int → Int → Int) (par : Nat → List Nat)
    (fuel : Nat) (mp : SupMaps) (s t : Nat) :
    lookupS m par (fuel + 1) mp s t =
      match findA mp (s, t) with
      | some c => (c, mp)
      | none =>
        match par s with
        | [] => (.missing, mp)
        | p :: ps =>
          finishLookup (m t) s t
            (collectS m par fuel (setA mp (s, t) .missing) (p :: ps) t) := by
  rw [lookupS]

theorem collectS_cons (m : Nat → Int → Int → Int) (par : Nat → List Nat)
    (fuel : Nat) (mp : SupMaps) (p : Nat) (ps : List Nat) (t : Nat) :
    (collectS m par fuel mp (p :: ps) t).2 =
      (collectS m par fuel (lookupS m par fuel mp p t).2 ps t).2 := by
  rw [collectS]
  rcases (lookupS m par fuel mp p t).1 with _ | v <;> rfl

/-- `lookupS` starting from supertext `s` only touches map entries of
supertexts reachable from `s`; under the parent-hierarchy well-formedness
(every parent id is smaller than its child id) every entry keyed by a
strictly larger supertext id is left untouched. -/
theorem lookupS_preserves (m : Nat → Int → Int → Int) (par : Nat → List Nat)
    (hpar : ∀ s p, p ∈ par s → p < s) :
    ∀ (fuel : Nat) (mp : SupMaps) (s t q u : Nat), s < q →
      findA (lookupS m par fuel mp s t).2 (q, u) = findA mp (q, u) := by
  intro fuel
  induction fuel with
  | zero => intro mp s t q u _; rw [lookupS_zero]
  | succ n ih =>
    have collect : ∀ (ps : List Nat) (mp : SupMaps) (t q u : Nat),
        (∀ p ∈ ps, p < q) →
        findA (collectS m par n mp ps t).2 (q, u) = findA mp (q, u) := by
      intro ps
      induction ps with
      | nil => intro mp t q u _; rw [collectS_nil]
      | cons p ps ihp =>
        intro mp t q u hb
        rw [collectS_cons]
        rw [ihp (lookupS m par n mp p t).2 t q u
          (fun x hx => hb x (List.mem_cons_of_mem p hx))]
        exact ih mp p t q u (hb p (List.mem_cons_self p ps))
    intro mp s t q u hq
    rcases hf : findA mp (s, t) with _ | c
    · rcases hps : par s with _ | ⟨p, ps⟩
      · simp [lookupS_succ, hf, hps]
      · have hkey : (q, u) ≠ (s, t) := by
          intro hcontr
          rw [Prod.mk.injEq] at hcontr
          omega
        have hinner : findA (collectS m par n
            (setA mp (s, t) .missing) (p :: ps) t).2 (q, u) =
            findA mp (q, u) := by
          rw [collect (p :: ps) (setA mp (s, t) .missing) t q u
            (fun x hx => lt_trans (hpar s x (hps ▸ hx)) hq)]
          exact findA_setA_ne mp (s, t) (q, u) .missing hkey
        rcases hres : collectS m par n (setA mp (s, t) .missing) (p :: ps) t
          with ⟨vals, mp2⟩
        have hinner2 : findA mp2 (q, u) = findA mp (q, u) := by
          have hcopy := hinner
          rw [hres] at hcopy
          exact hcopy
        simp only [lookupS_succ, hf, hps, hres]
        rcases vals with _ | ⟨v, vs⟩
        · simpa [finishLookup] using hinner2
        · simp only [finishLookup]
          rw [findA_setA_ne _ (s, t) (q, u) _ hkey]
          exact hinner2
    · simp [lookupS_succ, hf]

theorem collectS_preserves (m : Nat → Int → Int → Int)
    (par : Nat → List Nat) (hpar : ∀ s p, p ∈ par s → p < s) :
    ∀ (ps : List Nat) (fuel : Nat) (mp : SupMaps) (t q u : Nat),
      (∀ p ∈ ps, p < q) →
      findA (collectS m par fuel mp ps t).2 (q, u) = findA mp (q, u) := by
  intro ps
  induction ps with
  | nil => intro fuel mp t q u _; rw [collectS_nil]
  | cons p ps ihp =>
    intro fuel mp t q u hb
    rw [collectS_cons]
    rw [ihp fuel (lookupS m par fuel mp p t).2 t q u
      (fun x hx => hb x (List.mem_cons_of_mem p hx))]
    exact lookupS_preserves m par hpar fuel mp p t q u
      (hb p (List.mem_cons_self p ps))

/-- C4 (counterexample to the `EMPTY` part of the claim).
`Supertext.EMPTY` has no parents, and `lookup` returns `MISSING` for a
subtext absent on it *without caching anything*: the internal map is
still empty after the read (the source comments that "there is little
point caching the absence of a value" in this case). -/
theorem supertext_empty_missing_not_cached :
    lookupS (fun _ _ n => n) (fun _ => []) 5 [] 0 3 =
      (.missing, ([] : SupMaps)) := by
  rw [lookupS_succ]
  simp [findA]

/-- C4 (amended).  For a supertext with at least one parent, once
`lookup` returns, the computed result — including the `MISSING` sentinel
when every parent reported `MISSING` — is cached in the supertext's local
map (the cached entry equals the returned value), so any future read of
the same subtext is answered from the cache in constant time, returning
the identical value and leaving the maps untouched.  On a parentless
supertext such as `EMPTY`, `MISSING` is returned without caching. -/
theorem supertext_read_caches (m : Nat → Int → Int → Int)
    (par : Nat → List Nat) (hpar : ∀ s p, p ∈ par s → p < s)
    (fuel s t : Nat) (mp : SupMaps) (hs : s < fuel) (hne : par s ≠ []) :
    findA (lookupS m par fuel mp s t).2 (s, t) =
      some (lookupS m par fuel mp s t).1 ∧
    ∀ fuel', lookupS m par (fuel' + 1) (lookupS m par fuel mp s t).2 s t =
      ((lookupS m par fuel mp s t).1, (lookupS m par fuel mp s t).2) := by
  obtain ⟨f, rfl⟩ : ∃ f, fuel = f + 1 := ⟨fuel - 1, by omega⟩
  have hmain : findA (lookupS m par (f + 1) mp s t).2 (s, t) =
      some (lookupS m par (f + 1) mp s t).1 := by
    rcases hf : findA mp (s, t) with _ | c
    · rcases hps : par s with _ | ⟨p, ps⟩
      · exact absurd hps hne
      · have hpres : findA (collectS m par f
            (setA mp (s, t) .missing) (p :: ps) t).2 (s, t) =
            some .missing := by
          rw [collectS_preserves m par hpar (p :: ps) f _ t s t
            (fun x hx => hpar s x (hps ▸ hx))]
          exact findA_setA_self mp (s, t) .missing
        rcases hres : collectS m par f (setA mp (s, t) .missing) (p :: ps) t
          with ⟨vals, mp2⟩
        rw [hres] at hpres
        simp only [lookupS_succ, hf, hps, hres]
        rcases vals with _ | ⟨v, vs⟩
        · simpa [finishLookup] using hpres
        · simp only [finishLookup]
          exact findA_setA_self mp2 (s, t) _
    · simp [lookupS_succ, hf]
  refine ⟨hmain, fun fuel' => ?_⟩
  rw [lookupS_succ, hmain]

/-- Witness for `supertext_read_caches`: a two-node hierarchy in which
supertext 1 has the single parent 0 (the root). -/
theorem supertext_read_caches_witness :
    ((∀ s p, p ∈ (if s = 1 then [0] else ([] : List Nat)) → p < s) ∧
      (1 : Nat) < 2 ∧
      (if (1 : Nat) = 1 then [0] else ([] : List Nat)) ≠ []) ∧
    findA (lookupS (fun _ _ n => n) (fun s => if s = 1 then [0] else [])
        2 [] 1 0).2 (1, 0) =
      some (lookupS (fun _ _ n => n) (fun s => if s = 1 then [0] else [])
        2 [] 1 0).1 :=
  ⟨⟨fun s p hp => by
      by_cases h1 : s = 1
      · subst h1; simp at hp; omega
      · simp [h1] at hp,
    by omega, by simp⟩,
    (supertext_read_caches (fun _ _ n => n)
      (fun s => if s = 1 then [0] else []) (fun s p hp => by
        by_cases h1 : s = 1
        · subst h1; simp at hp; omega
        · simp [h1] at hp)
      2 1 0 [] (by omega) (by simp)).1⟩

/-- The interning state behind `Supertext.merge`: `supertextMergeTrie`
(keyed by the deduplicated parent sequence) plus the id that the next
`new Supertext(uniqueParents)` call would allocate. -/
structure MergeState where
  trie : List (List Nat × Nat)
  nextId : Nat
deriving DecidableEq, Repr

/-- `Supertext.merge(...parents)`: deduplicate the parents preferring the
rightmost occurrence, then look the deduplicated sequence up in the merge
trie, reusing the stored Supertext when present and otherwise interning a
freshly constructed one. -/
def mergeSupertext (st : MergeState) (parents : List Nat) :
    Nat × MergeState :=
  let uniqueParents := dedupRight parents
  match findA st.trie uniqueParents with
  | some sid => (sid, st)
  | none =>
    (st.nextId, ⟨setA st.trie uniqueParents st.nextId, st.nextId + 1⟩)

/-- C5.  `Supertext.merge` calls whose parent sequences deduplicate (with
rightmost preference) to the same sequence return the identical Supertext
object and leave the interning state unchanged on the repeated call; in
particular `merge(a, b, c) === merge(a, b, c)` (take `qs = ps`) and
`merge(a, a, b) === merge(a, b)`, since `[a, a, b]` and `[a, b]`
deduplicate identically. -/
theorem supertext_merge_interning (st : MergeState) (ps qs : List Nat)
    (h : dedupRight ps = dedupRight qs) :
    (mergeSupertext (mergeSupertext st ps).2 qs).1 =
      (mergeSupertext st ps).1 ∧
    (mergeSupertext (mergeSupertext st ps).2 qs).2 =
      (mergeSupertext st ps).2 ∧
    (∀ a b : Nat, dedupRight [a, a, b] = dedupRight [a, b]) := by
  have hthird : ∀ a b : Nat, dedupRight [a, a, b] = dedupRight [a, b] := by
    intro a b
    by_cases hab : a = b <;> simp [dedupRight, hab]
  have hpair : mergeSupertext (mergeSupertext st ps).2 qs =
      ((mergeSupertext st ps).1, (mergeSupertext st ps).2) := by
    unfold mergeSupertext
    rw [← h]
    rcases hfind : findA st.trie (dedupRight ps) with _ | sid
    · simp only [hfind, findA_setA_self]
    · simp only [hfind]
  exact ⟨by rw [hpair], by rw [hpair], hthird⟩

/-- Witness for `supertext_merge_interning`: `merge(3, 3, 5)` followed by
`merge(3, 5)` on a fresh merge trie. -/
theorem supertext_merge_interning_witness :
    dedupRight [3, 3, 5] = dedupRight [3, 5] ∧
    (mergeSupertext (mergeSupertext ⟨[], 0⟩ [3, 3, 5]).2 [3, 5]).1 =
      (mergeSupertext (⟨[], 0⟩ : MergeState) [3, 3, 5]).1 :=
  ⟨by decide,
    (supertext_merge_interning ⟨[], 0⟩ [3, 3, 5] [3, 5] (by decide)).1⟩

end WrySupertext

/-! ## Deep equality (packages/equality/src/checker.ts)

`DeepChecker.check(a, b)` returns true on strict equality, false on
differing `Object.prototype.toString` tags, and otherwise dispatches on
the tag; for plain objects `checkObjects` compares the keys with defined
(non-`undefined`) values: equal counts of defined keys, every defined key
of `a` own-present on `b`, and pairwise-recursively equal values.

The model covers the acyclic fragment: values are finite trees (an
object's `fields` list models its own enumerable string keys in insertion
order, without duplicates, exactly as `Object.keys` exposes them), and
the strict-equality fast path `a === b` is structural equality, which on
acyclic plain data yields the same overall verdict as reference equality
(identical references are structurally equal, and the structural checkers
accept structurally equal trees anyway).  The `comparisons` pair-cache of
the source only affects repeat and cyclic comparisons, neither of which
arises on trees, so it is omitted. -/

namespace WryEquality

/-- A JavaScript value in the acyclic plain-data fragment. -/
inductive JSVal where
  | undef
  | nullv
  | num (n : Int)
  | str (s : String)
  | boolv (b : Bool)
  | obj (fields : List (String × JSVal))
  | arr (elems : List JSVal)
deriving Repr

mutual

/-- Boolean equality of `JSVal` trees (used to model `a === b`, which on
acyclic plain data is observationally structural; see the section
comment). -/
def beqV : JSVal → JSVal → Bool
  | .undef, .undef => true
  | .nullv, .nullv => true
  | .num n, .num m => n == m
  | .str s, .str t => s == t
  | .boolv x, .boolv y => x == y
  | .obj fa, .obj fb => beqF fa fb
  | .arr xs, .arr ys => beqL xs ys
  | _, _ => false
termination_by a _ => sizeOf a

def beqF : List (String × JSVal) → List (String × JSVal) → Bool
  | [], [] => true
  | (k, v) :: r, (k', v') :: r' => k == k' && beqV v v' && beqF r r'
  | _, _ => false
termination_by fa _ => sizeOf fa

def beqL : List JSVal → List JSVal → Bool
  | [], [] => true
  | x :: xs, y :: ys => beqV x y && beqL xs ys
  | _, _ => false
termination_by xs _ => sizeOf xs

end

theorem beq_sound : ∀ n : Nat,
    (∀ a b : JSVal, sizeOf a ≤ n → (beqV a b = true ↔ a = b)) ∧
    (∀ fa fb : List (String × JSVal), sizeOf fa ≤ n →
      (beqF fa fb = true ↔ fa = fb)) ∧
    (∀ xs ys : List JSVal, sizeOf xs ≤ n →
      (beqL xs ys = true ↔ xs = ys)) := by
  intro n
  induction n with
  | zero =>
    refine ⟨fun a b h => ?_, fun fa fb h => ?_, fun xs ys h => ?_⟩
    · cases a <;> simp_arith at h
    · cases fa <;> simp_arith at h
    · cases xs <;> simp_arith at h
  | succ n ih =>
    obtain ⟨ihV, ihF, ihL⟩ := ih
    refine ⟨fun a b h => ?_, fun fa fb h => ?_, fun xs ys h => ?_⟩
    · cases a <;> cases b
      case obj.obj fa fb =>
        have hfa : sizeOf fa ≤ n := by simp_arith at h; omega
        simp only [beqV]
        rw [ihF fa fb hfa]
        simp
      case arr.arr xs ys =>
        have hxs : sizeOf xs ≤ n := by simp_arith at h; omega
        simp only [beqV]
        rw [ihL xs ys hxs]
        simp
      all_goals simp [beqV]
    · cases fa with
      | nil => cases fb <;> simp [beqF]
      | cons kv r =>
        cases fb with
        | nil => simp [beqF]
        | cons kv' r' =>
          obtain ⟨k, v⟩ := kv
          obtain ⟨k', v'⟩ := kv'
          have hv : sizeOf v ≤ n := by simp_arith at h; omega
          have hr : sizeOf r ≤ n := by simp_arith at h; omega
          simp only [beqF, Bool.and_eq_true, ihV v v' hv, ihF r r' hr,
            beq_iff_eq, List.cons.injEq, Prod.mk.injEq]
    · cases xs with
      | nil => cases ys <;> simp [beqL]
      | cons x r =>
        cases ys with
        | nil => simp [beqL]
        | cons y r' =>
          have hx : sizeOf x ≤ n := by simp_arith at h; omega
          have hr : sizeOf r ≤ n := by simp_arith at h; omega
          simp only [beqL, Bool.and_eq_true, ihV x y hx, ihL r r' hr,
            List.cons.injEq]

instance : DecidableEq JSVal := fun a b =>
  decidable_of_iff (beqV a b = true) ((beq_sound (sizeOf a)).1 a b le_rfl)

/-- `Object.prototype.toString.call` (`objToStr`). -/
def tagOf : JSVal → String
  | .undef => "[object Undefined]"
  | .nullv => "[object Null]"
  | .num _ => "[object Number]"
  | .str _ => "[object String]"
  | .boolv _ => "[object Boolean]"
  | .obj _ => "[object Object]"
  | .arr _ => "[object Array]"

/-- Property read `obj[key]`: `undefined` when the key is absent. -/
def getField : List (String × JSVal) → String → JSVal
  | [], _ => .undef
  | (k, v) :: rest, key => if k = key then v else getField rest key

/-- `hasOwnProperty.call(obj, key)`. -/
def hasOwnB : List (String × JSVal) → String → Bool
  | [], _ => false
  | (k, _) :: rest, key => if k = key then true else hasOwnB rest key

/-- `definedKeys` (equality/src/helpers.ts): the own enumerable keys
whose values are not `undefined`, in key order. -/
def definedKeys (fields : List (String × JSVal)) : List String :=
  (fields.filter fun kv => decide (kv.2 ≠ .undef)).map Prod.fst

theorem getField_sizeOf_le (fields : List (String × JSVal)) (key : String) :
    sizeOf (getField fields key) ≤ sizeOf fields := by
  induction fields with
  | nil => simp [getField]
  | cons hd rest ih =>
    obtain ⟨k, v⟩ := hd
    by_cases h : k = key
    · simp only [getField, h, if_true, reduceIte]
      simp
      omega
    · simp only [getField, h, if_false, reduceIte]
      simp
      omega

mutual

/-- `DeepChecker.check` restricted to the acyclic plain-data fragment:
strict equality, tag comparison, then the tag-dispatched checker
(`checkArrays` for arrays, `checkObjects` for plain objects; values of
the remaining tags are fully handled by the first two steps, since their
equality rules coincide with value equality here). -/
def check (a b : JSVal) : Bool :=
  if a = b then true
  else if tagOf a ≠ tagOf b then false
  else
    match a, b with
    | .arr xs, .arr ys =>
      if xs.length ≠ ys.length then false else checkElems xs ys
    | .obj fa, .obj fb =>
      if (definedKeys fa).length ≠ (definedKeys fb).length then false
      else if ¬((definedKeys fa).all fun k => hasOwnB fb k) then false
      else checkFields fa fb (definedKeys fa)
    | _, _ => false
termination_by (sizeOf a, 0)

/-- The element loop of `checkArrays` (lengths already equal). -/
def checkElems : List JSVal → List JSVal → Bool
  | [], _ => true
  | _ :: _, [] => true
  | x :: xs, y :: ys => check x y && checkElems xs ys
termination_by xs _ => (sizeOf xs, 0)

/-- The two key loops of `checkObjects` over `aKeys`: own-presence on
`b` is checked before this loop, which checks the children pairwise. -/
def checkFields (fa fb : List (String × JSVal)) : List String → Bool
  | [] => true
  | k :: ks => check (getField fa k) (getField fb k) && checkFields fa fb ks
termination_by ks => (sizeOf fa, ks.length + 1)
decreasing_by
  · have hle := getField_sizeOf_le fa k
    rcases Nat.lt_or_ge (sizeOf (getField fa k)) (sizeOf fa) with hlt | hge
    · exact Prod.Lex.left _ _ hlt
    · have heq : sizeOf (getField fa k) = sizeOf fa :=
        Nat.le_antisymm hle hge
      rw [heq]
      exact Prod.Lex.right _ (by omega)
  · exact Prod.Lex.right _ (by simp only [List.length_cons]; omega)

end

/-- `equal(a, b)`: acquire a pooled `DeepChecker`, run `check`, release. -/
def equal (a b : JSVal) : Bool := check a b

theorem check_unfold (a b : JSVal) :
    check a b =
      if a = b then true
      else if tagOf a ≠ tagOf b then false
      else
        match a, b with
        | .arr xs, .arr ys =>
          if xs.length ≠ ys.length then false else checkElems xs ys
        | .obj fa, .obj fb =>
          if (definedKeys fa).length ≠ (definedKeys fb).length then false
          else if ¬((definedKeys fa).all fun k => hasOwnB fb k) then false
          else checkFields fa fb (definedKeys fa)
        | _, _ => false := by
  rw [check.eq_def]

theorem checkFields_nil (fa fb : List (String × JSVal)) :
    checkFields fa fb [] = true := by
  rw [checkFields]

theorem checkFields_cons (fa fb : List (String × JSVal)) (k : String)
    (ks : List String) :
    checkFields fa fb (k :: ks) =
      (check (getField fa k) (getField fb k) && checkFields fa fb ks) := by
  rw [checkFields]

theorem check_refl (a : JSVal) : check a a = true := by
  rw [check_unfold]
  simp

theorem checkFields_iff (fa fb : List (String × JSVal)) (ks : List String) :
    checkFields fa fb ks = true ↔
      ∀ k ∈ ks, check (getField fa k) (getField fb k) = true := by
  induction ks with
  | nil => simp [checkFields_nil]
  | cons k ks ih => simp [checkFields_cons, ih]

/-- `check` against `undefined` succeeds only for `undefined` itself
(strict equality handles that case; every other value has a different
`objToStr` tag than `[object Undefined]`). -/
theorem check_undef_right (a : JSVal) :
    check a .undef = true ↔ a = .undef := by
  cases a <;> simp [check_unfold, tagOf]

theorem definedKeys_subset (f : List (String × JSVal)) :
    definedKeys f ⊆ f.map Prod.fst := by
  intro x hx
  obtain ⟨kv, hkv, rfl⟩ := List.mem_map.mp hx
  exact List.mem_map.mpr ⟨kv, (List.mem_filter.mp hkv).1, rfl⟩

theorem definedKeys_cons (k0 : String) (v0 : JSVal)
    (r : List (String × JSVal)) :
    definedKeys ((k0, v0) :: r) =
      if v0 = JSVal.undef then definedKeys r else k0 :: definedKeys r := by
  by_cases hv : v0 = JSVal.undef <;> simp [definedKeys, hv]

theorem definedKeys_nodup (f : List (String × JSVal))
    (hnd : (f.map Prod.fst).Nodup) : (definedKeys f).Nodup := by
  induction f with
  | nil => simp [definedKeys]
  | cons kv r ih =>
    obtain ⟨k0, v0⟩ := kv
    rw [List.map_cons] at hnd
    have hk0 : k0 ∉ r.map Prod.fst := (List.nodup_cons.mp hnd).1
    have ih' := ih (List.nodup_cons.mp hnd).2
    rw [definedKeys_cons]
    by_cases hv : v0 = JSVal.undef
    · simp [hv, ih']
    · simp only [hv, if_neg, reduceIte, List.nodup_cons]
      exact ⟨fun hmem => hk0 (definedKeys_subset r hmem), ih'⟩

theorem mem_definedKeys (f : List (String × JSVal)) (k : String)
    (hnd : (f.map Prod.fst).Nodup) :
    k ∈ definedKeys f ↔ getField f k ≠ .undef := by
  induction f with
  | nil => simp [definedKeys, getField]
  | cons kv r ih =>
    obtain ⟨k0, v0⟩ := kv
    rw [List.map_cons] at hnd
    have hk0 : k0 ∉ r.map Prod.fst := (List.nodup_cons.mp hnd).1
    have ih' := ih (List.nodup_cons.mp hnd).2
    rw [definedKeys_cons]
    by_cases hkk : k0 = k
    · subst hkk
      by_cases hv : v0 = JSVal.undef
      · subst hv
        simp [getField]
        intro hmem
        exact hk0 (definedKeys_subset r hmem)
      · simp [hv, getField]
    · by_cases hv : v0 = JSVal.undef
      · simp [hv, getField, hkk, ih']
      · simp [hv, getField, hkk, Ne.symm hkk, ih']

theorem hasOwnB_iff (f : List (String × JSVal)) (k : String) :
    hasOwnB f k = true ↔ k ∈ f.map Prod.fst := by
  induction f with
  | nil => simp [hasOwnB]
  | cons kv r ih =>
    obtain ⟨k0, v0⟩ := kv
    by_cases hkk : k0 = k
    · simp [hasOwnB, hkk]
    · simp [hasOwnB, hkk, ih, Ne.symm hkk]

theorem hasOwnB_of_getField (f : List (String × JSVal)) (k : String)
    (h : getField f k ≠ .undef) : hasOwnB f k = true := by
  induction f with
  | nil => exact absurd rfl h
  | cons kv r ih =>
    obtain ⟨k0, v0⟩ := kv
    by_cases hkk : k0 = k
    · simp [hasOwnB, hkk]
    · rw [getField] at h
      simp only [hkk, if_false, reduceIte] at h
      simp [hasOwnB, hkk, ih h]

theorem check_obj_obj (fa fb : List (String × JSVal))
    (hne : JSVal.obj fa ≠ JSVal.obj fb) :
    check (.obj fa) (.obj fb) =
      (if (definedKeys fa).length ≠ (definedKeys fb).length then false
       else if ¬((definedKeys fa).all fun k => hasOwnB fb k) then false
       else checkFields fa fb (definedKeys fa)) := by
  rw [check_unfold, if_neg hne, if_neg (by simp [tagOf])]

/-- C7.  For plain objects (modelled with duplicate-free key lists, as
`Object.keys` guarantees), `equal(a, b)` returns true exactly when `a`
and `b` have the same set of keys with defined (non-`undefined`) values
and the values at those keys are pairwise deeply equal.  A key that is
absent reads as `undefined` (`getField` returns `.undef`) and is omitted
from `definedKeys`, so a missing key and a key present with value
`undefined` are treated identically. -/
theorem equal_plain_objects (fa fb : List (String × JSVal))
    (hna : (fa.map Prod.fst).Nodup) (hnb : (fb.map Prod.fst).Nodup) :
    equal (.obj fa) (.obj fb) = true ↔
      ((∀ k, k ∈ definedKeys fa ↔ k ∈ definedKeys fb) ∧
        ∀ k ∈ definedKeys fa,
          check (getField fa k) (getField fb k) = true) := by
  have hnda := definedKeys_nodup fa hna
  have hndb := definedKeys_nodup fb hnb
  unfold equal
  by_cases heq : JSVal.obj fa = JSVal.obj fb
  · obtain rfl : fa = fb := by injection heq
    exact ⟨fun _ => ⟨fun _ => Iff.rfl, fun k _ => check_refl _⟩,
      fun _ => check_refl _⟩
  · rw [check_obj_obj fa fb heq]
    constructor
    · intro h
      by_cases hlen :
          (definedKeys fa).length = (definedKeys fb).length
      swap
      · rw [if_pos hlen] at h
        cases h
      by_cases hall :
          ((definedKeys fa).all fun k => hasOwnB fb k) = true
      swap
      · rw [if_neg (fun hc => hc hlen), if_pos hall] at h
        cases h
      rw [if_neg (fun hc => hc hlen), if_neg (fun hc => hc hall)] at h
      have hpair := (checkFields_iff fa fb _).mp h
      have hsub : ∀ k ∈ definedKeys fa, k ∈ definedKeys fb := by
        intro k hk
        have hda : getField fa k ≠ .undef := (mem_definedKeys fa k hna).mp hk
        have hc := hpair k hk
        have hdb : getField fb k ≠ .undef := by
          intro hu
          rw [hu] at hc
          exact hda ((check_undef_right (getField fa k)).mp hc)
        exact (mem_definedKeys fb k hnb).mpr hdb
      refine ⟨fun k => ⟨fun hk => hsub k hk, fun hk => ?_⟩, hpair⟩
      have hsubF : (definedKeys fa).toFinset ⊆ (definedKeys fb).toFinset :=
        fun x hx => List.mem_toFinset.mpr (hsub x (List.mem_toFinset.mp hx))
      have hcards : (definedKeys fb).toFinset.card ≤
          (definedKeys fa).toFinset.card := by
        rw [List.toFinset_card_of_nodup hnda,
          List.toFinset_card_of_nodup hndb]
        omega
      have hFeq : (definedKeys fa).toFinset = (definedKeys fb).toFinset :=
        Finset.eq_of_subset_of_card_le hsubF hcards
      exact List.mem_toFinset.mp (hFeq ▸ List.mem_toFinset.mpr hk)
    · rintro ⟨hiff, hpair⟩
      have hFeq : (definedKeys fa).toFinset = (definedKeys fb).toFinset := by
        ext x
        simp only [List.mem_toFinset]
        exact hiff x
      have hlen : (definedKeys fa).length = (definedKeys fb).length := by
        rw [← List.toFinset_card_of_nodup hnda,
          ← List.toFinset_card_of_nodup hndb, hFeq]
      have hall : ((definedKeys fa).all fun k => hasOwnB fb k) = true := by
        rw [List.all_eq_true]
        intro k hk
        exact hasOwnB_of_getField fb k
          ((mem_definedKeys fb k hnb).mp ((hiff k).mp hk))
      rw [if_neg (fun hc => hc hlen), if_neg (fun hc => hc hall)]
      exact (checkFields_iff fa fb _).mpr hpair

/-- Witness for `equal_plain_objects`: `{x: 1, y: undefined}` compared
with `{x: 1}` (missing ≡ undefined). -/
theorem equal_plain_objects_witness :
    ((([("x", JSVal.num 1), ("y", JSVal.undef)].map Prod.fst).Nodup ∧
      ([("x", JSVal.num 1)].map Prod.fst).Nodup)) ∧
    (equal (.obj [("x", JSVal.num 1), ("y", JSVal.undef)])
        (.obj [("x", JSVal.num 1)]) = true ↔
      ((∀ k, k ∈ definedKeys [("x", JSVal.num 1), ("y", JSVal.undef)] ↔
          k ∈ definedKeys [("x", JSVal.num 1)]) ∧
        ∀ k ∈ definedKeys [("x", JSVal.num 1), ("y", JSVal.undef)],
          check (getField [("x", JSVal.num 1), ("y", JSVal.undef)] k)
            (getField [("x", JSVal.num 1)] k) = true)) :=
  ⟨⟨by simp, by simp⟩,
    equal_plain_objects [("x", JSVal.num 1), ("y", JSVal.undef)]
      [("x", JSVal.num 1)] (by simp) (by simp)⟩

end WryEquality

/-! ## KeySetMap (packages/key-set-map/src/index.ts)

`KeySetMap` indexes a `CanonicalKeys` entry (whose `data` field, created
once by `makeData` at record time and never replaced, is what `lookup`
returns) by every one of its keys and by its size:
`key -> size -> Set<CanonicalKeys>`.  `lookup(keys)` builds
`new Set(keys)` and delegates to `lookupSet`, which either finds the
existing entry by intersecting the size-indexed buckets of the keys or
records a fresh entry.  The empty set is held in a dedicated slot.

Keys are modelled by a single decidable-equality type: the source splits
them between a weak and a strong map by `isObjRef`, but a key of a given
kind only ever touches the map chosen for it, so the pair of maps is
observationally a single map.  `CanonicalKeys` entries are identified by
numeric ids (allocation order); returning the entry id models returning
the entry (and hence its `data`). -/

namespace WryKeySetMap

open WryHandlers (findA setA findA_setA_self)
open WrySupertext (findA_setA_ne)

/-- `new Set(keys)`: deduplicate preserving first occurrences. -/
def jsSet {K : Type} [DecidableEq K] : List K → List K
  | [] => []
  | x :: rest => x :: (jsSet rest).filter (fun y => decide (y ≠ x))

/-- The state of a `KeySetMap`: allocated `CanonicalKeys` entries (id to
recorded key list), the `key -> size -> set-of-entries` index, and the
dedicated slot for the empty set. -/
structure KSMState (K : Type) where
  nextId : Nat
  keysOf : List (Nat × List K)
  index : List ((K × Nat) × List Nat)
  emptyCks : Option Nat

/-- The `size`-indexed bucket for a key: the set of `CanonicalKeys` of
that size containing the key. -/
def bucketOf {K : Type} [DecidableEq K] (st : KSMState K) (k : K)
    (n : Nat) : List Nat :=
  (findA st.index (k, n)).getD []

/-- The intersection computed by `findCanonicalKeys`, starting from one
bucket and removing entries absent from any other key's bucket (the
source starts from the smallest bucket, which only changes the cost, not
the resulting set). -/
def intersectionOf {K : Type} [DecidableEq K] (st : KSMState K) :
    List K → List Nat
  | [] => []
  | k :: ks =>
    (bucketOf st k (ks.length + 1)).filter
      (fun id => ks.all fun k' => decide (id ∈ bucketOf st k' (ks.length + 1)))

/-- `findCanonicalKeys(set)`: the empty set uses the dedicated slot; for
a non-empty set, if any key's bucket is empty the intersection is empty,
otherwise the surviving entry of the bucket intersection (at most one, as
proved below) is returned. -/
def findCanonicalKeys {K : Type} [DecidableEq K] (st : KSMState K)
    (s : List K) : Option Nat :=
  match s with
  | [] => st.emptyCks
  | k :: ks =>
    if (k :: ks).all (fun k' =>
        decide (bucketOf st k' (ks.length + 1) ≠ [])) then
      (intersectionOf st (k :: ks)).head?
    else
      none

/-- `sets.add(cks)` after the `sizeIndex.get`/`set` dance: add an entry
id to the `(key, size)` bucket. -/
def addBucket {K : Type} [DecidableEq K]
    (ix : List ((K × Nat) × List Nat)) (key : K) (n : Nat) (cid : Nat) :
    List ((K × Nat) × List Nat) :=
  setA ix (key, n) (cid :: (findA ix (key, n)).getD [])

/-- `recordCanonicalKeys(keys)`: allocate a fresh entry (or the empty
slot) and index it under each of its keys at its size. -/
def recordCanonicalKeys {K : Type} [DecidableEq K] (st : KSMState K)
    (s : List K) : Nat × KSMState K :=
  match s with
  | [] =>
    match st.emptyCks with
    | some c => (c, st)
    | none =>
      (st.nextId,
        { st with
            emptyCks := some st.nextId
            keysOf := (st.nextId, ([] : List K)) :: st.keysOf
            nextId := st.nextId + 1 })
  | k :: ks =>
    let cid := st.nextId
    let n := (k :: ks).length
    (cid,
      { nextId := cid + 1
        keysOf := (cid, k :: ks) :: st.keysOf
        index := (k :: ks).foldl (fun ix key => addBucket ix key n cid) st.index
        emptyCks := st.emptyCks })

/-- `lookupSet(set)`: find or record. -/
def lookupSet {K : Type} [DecidableEq K] (st : KSMState K) (s : List K) :
    Nat × KSMState K :=
  match findCanonicalKeys st s with
  | some cid => (cid, st)
  | none => recordCanonicalKeys st s

/-- `lookup(keys) = lookupSet(new Set(keys))`. -/
def lookup {K : Type} [DecidableEq K] (st : KSMState K) (ks : List K) :
    Nat × KSMState K :=
  lookupSet st (jsSet ks)

theorem mem_jsSet {K : Type} [DecidableEq K] (l : List K) (x : K) :
    x ∈ jsSet l ↔ x ∈ l := by
  induction l with
  | nil => simp [jsSet]
  | cons y rest ih =>
    simp only [jsSet, List.mem_cons, List.mem_filter]
    constructor
    · rintro (rfl | ⟨hx, _⟩)
      · exact Or.inl rfl
      · exact Or.inr (ih.mp hx)
    · rintro (rfl | hx)
      · exact Or.inl rfl
      · by_cases hxy : x = y
        · exact Or.inl hxy
        · exact Or.inr ⟨ih.mpr hx, by simp [hxy]⟩

theorem jsSet_nodup {K : Type} [DecidableEq K] (l : List K) :
    (jsSet l).Nodup := by
  induction l with
  | nil => simp [jsSet]
  | cons y rest ih =>
    simp only [jsSet, List.nodup_cons]
    refine ⟨fun hy => ?_, ih.filter _⟩
    rw [List.mem_filter] at hy
    simp at hy

theorem jsSet_toFinset {K : Type} [DecidableEq K] (l : List K) :
    (jsSet l).toFinset = l.toFinset := by
  ext x
  simp [List.mem_toFinset, mem_jsSet]

/-- The well-formedness invariant of a reachable `KeySetMap` state: key
lists are recorded without duplicates; interning keeps the key sets of
distinct entries distinct; the size-indexed buckets are sound and
complete for the recorded entries, and are genuine sets; allocated ids
are below `nextId`; and an entry with the empty key set is exactly the
dedicated empty slot. -/
structure WF {K : Type} [DecidableEq K] (st : KSMState K) : Prop where
  keys_nodup : ∀ id l, findA st.keysOf id = some l → l.Nodup
  distinct : ∀ id1 l1 id2 l2, findA st.keysOf id1 = some l1 →
    findA st.keysOf id2 = some l2 → l1.toFinset = l2.toFinset → id1 = id2
  bucket_sound : ∀ k n id, id ∈ bucketOf st k n →
    ∃ l, findA st.keysOf id = some l ∧ k ∈ l ∧ l.length = n
  bucket_complete : ∀ id l, findA st.keysOf id = some l →
    ∀ k ∈ l, id ∈ bucketOf st k l.length
  bucket_nodup : ∀ k n, (bucketOf st k n).Nodup
  fresh : ∀ id l, findA st.keysOf id = some l → id < st.nextId
  empty_slot : ∀ id, findA st.keysOf id = some [] → st.emptyCks = some id

/-- A fresh `new KeySetMap` state. -/
def KSMState.empty (K : Type) : KSMState K :=
  { nextId := 0, keysOf := [], index := [], emptyCks := none }

theorem wf_empty (K : Type) [DecidableEq K] : WF (KSMState.empty K) := by
  constructor <;> intros <;> simp_all [KSMState.empty, findA, bucketOf]

/-- An entry survives the bucket intersection for a (duplicate-free,
non-empty) key set exactly when its recorded key list has that very key
set. -/
theorem mem_intersectionOf {K : Type} [DecidableEq K] (st : KSMState K)
    (hwf : WF st) (k : K) (ks : List K) (hnd : (k :: ks).Nodup) (j : Nat) :
    j ∈ intersectionOf st (k :: ks) ↔
      ∃ l, findA st.keysOf j = some l ∧
        l.toFinset = (k :: ks).toFinset := by
  have hn : (k :: ks).length = ks.length + 1 := rfl
  constructor
  · intro hj
    rw [intersectionOf, List.mem_filter] at hj
    obtain ⟨hjb, hall⟩ := hj
    rw [List.all_eq_true] at hall
    obtain ⟨l, hl, hkl, hlen⟩ := hwf.bucket_sound k (ks.length + 1) j hjb
    have hsub : ∀ k' ∈ k :: ks, k' ∈ l := by
      intro k' hk'
      rcases List.mem_cons.mp hk' with rfl | hk's
      · exact hkl
      · have hjb' : j ∈ bucketOf st k' (ks.length + 1) := by
          have := hall k' hk's
          simpa using this
        obtain ⟨l', hl', hk'l', _⟩ :=
          hwf.bucket_sound k' (ks.length + 1) j hjb'
        rw [hl] at hl'
        exact (Option.some.inj hl') ▸ hk'l'
    have hndl := hwf.keys_nodup j l hl
    have hsubF : (k :: ks).toFinset ⊆ l.toFinset := fun x hx =>
      List.mem_toFinset.mpr (hsub x (List.mem_toFinset.mp hx))
    have hcard : l.toFinset.card ≤ (k :: ks).toFinset.card := by
      rw [List.toFinset_card_of_nodup hndl,
        List.toFinset_card_of_nodup hnd]
      omega
    exact ⟨l, hl, (Finset.eq_of_subset_of_card_le hsubF hcard).symm⟩
  · rintro ⟨l, hl, hset⟩
    have hndl := hwf.keys_nodup j l hl
    have hlen : l.length = ks.length + 1 := by
      have := congrArg Finset.card hset
      rw [List.toFinset_card_of_nodup hndl,
        List.toFinset_card_of_nodup hnd] at this
      simpa using this
    have hbucket : ∀ k' ∈ k :: ks, j ∈ bucketOf st k' (ks.length + 1) := by
      intro k' hk'
      have hk'l : k' ∈ l := by
        rw [← List.mem_toFinset, hset, List.mem_toFinset] at *
        exact List.mem_toFinset.mp (hset ▸ List.mem_toFinset.mpr hk')
      have := hwf.bucket_complete j l hl k' hk'l
      rwa [hlen] at this
    rw [intersectionOf, List.mem_filter]
    refine ⟨hbucket k (List.mem_cons_self k ks), ?_⟩
    rw [List.all_eq_true]
    intro k' hk'
    simpa using hbucket k' (List.mem_cons_of_mem k hk')

/-- C6 (second half): at most one `CanonicalKeys` entry survives the
size-indexed intersection. -/
theorem intersectionOf_length_le_one {K : Type} [DecidableEq K]
    (st : KSMState K) (hwf : WF st) (s : List K) (hnd : s.Nodup) :
    (intersectionOf st s).length ≤ 1 := by
  match s with
  | [] => simp [intersectionOf]
  | k :: ks =>
    have hfilter : (intersectionOf st (k :: ks)).Nodup := by
      rw [intersectionOf]
      exact (hwf.bucket_nodup k (ks.length + 1)).filter _
    have huniq : ∀ j1 ∈ intersectionOf st (k :: ks),
        ∀ j2 ∈ intersectionOf st (k :: ks), j1 = j2 := by
      intro j1 h1 j2 h2
      obtain ⟨l1, hl1, hs1⟩ := (mem_intersectionOf st hwf k ks hnd j1).mp h1
      obtain ⟨l2, hl2, hs2⟩ := (mem_intersectionOf st hwf k ks hnd j2).mp h2
      exact hwf.distinct j1 l1 j2 l2 hl1 hl2 (hs1.trans hs2.symm)
    match hint : intersectionOf st (k :: ks) with
    | [] => simp
    | [j] => simp
    | j1 :: j2 :: t =>
      exfalso
      have h1 : j1 ∈ intersectionOf st (k :: ks) := by
        rw [hint]; exact List.mem_cons_self _ _
      have h2 : j2 ∈ intersectionOf st (k :: ks) := by
        rw [hint]; simp
      have := huniq j1 h1 j2 h2
      rw [hint] at hfilter
      simp [this] at hfilter

/-- `findCanonicalKeys` on a duplicate-free non-empty key set returns
exactly the entry whose recorded key list has that key set, when one
exists, and `none` otherwise. -/
theorem findCanonicalKeys_some_iff {K : Type} [DecidableEq K]
    (st : KSMState K) (hwf : WF st) (k : K) (ks : List K)
    (hnd : (k :: ks).Nodup) (id : Nat) :
    findCanonicalKeys st (k :: ks) = some id ↔
      ∃ l, findA st.keysOf id = some l ∧
        l.toFinset = (k :: ks).toFinset := by
  constructor
  · intro hfind
    rw [findCanonicalKeys] at hfind
    by_cases hguard : ((k :: ks).all fun k' =>
        decide (bucketOf st k' (ks.length + 1) ≠ [])) = true
    · rw [if_pos hguard] at hfind
      have hidmem : id ∈ intersectionOf st (k :: ks) := by
        rcases hint : intersectionOf st (k :: ks) with _ | ⟨j, t⟩
        · rw [hint] at hfind; cases hfind
        · rw [hint] at hfind
          simp only [List.head?_cons] at hfind
          cases hfind
          exact List.mem_cons_self _ _
      exact (mem_intersectionOf st hwf k ks hnd id).mp hidmem
    · rw [if_neg hguard] at hfind
      cases hfind
  · rintro ⟨l, hl, hset⟩
    have hidmem : id ∈ intersectionOf st (k :: ks) :=
      (mem_intersectionOf st hwf k ks hnd id).mpr ⟨l, hl, hset⟩
    have hbuckets : ∀ k' ∈ k :: ks,
        bucketOf st k' (ks.length + 1) ≠ [] := by
      intro k' hk'
      rw [intersectionOf, List.mem_filter] at hidmem
      obtain ⟨hidb, hall⟩ := hidmem
      rcases List.mem_cons.mp hk' with rfl | hk's
      · exact fun hemp => by rw [hemp] at hidb; cases hidb
      · rw [List.all_eq_true] at hall
        have := hall k' hk's
        simp only [decide_eq_true_eq] at this
        exact fun hemp => by rw [hemp] at this; cases this
    rw [findCanonicalKeys, if_pos (by
      rw [List.all_eq_true]
      intro k' hk'
      simpa using hbuckets k' hk')]
    rcases hint : intersectionOf st (k :: ks) with _ | ⟨j, t⟩
    · rw [hint] at hidmem; cases hidmem
    · have hj : j ∈ intersectionOf st (k :: ks) := by
        rw [hint]; exact List.mem_cons_self _ _
      obtain ⟨l1, hl1, hs1⟩ := (mem_intersectionOf st hwf k ks hnd j).mp hj
      have : j = id :=
        hwf.distinct j l1 id l hl1 hl (hs1.trans hset.symm)
      simp [this]

theorem foldl_addBucket_findA {K : Type} [DecidableEq K] :
    ∀ (keys : List K) (ix : List ((K × Nat) × List Nat)) (n cid : Nat)
      (key : K) (n' : Nat), keys.Nodup →
      (findA (keys.foldl (fun ix k => addBucket ix k n cid) ix)
          (key, n')).getD [] =
        if key ∈ keys ∧ n' = n then
          cid :: (findA ix (key, n')).getD []
        else (findA ix (key, n')).getD [] := by
  intro keys
  induction keys with
  | nil => intro ix n cid key n' _; simp
  | cons k0 rest ih =>
    intro ix n cid key n' hnd
    rw [List.foldl_cons]
    have hnd' := (List.nodup_cons.mp hnd).2
    have hk0 := (List.nodup_cons.mp hnd).1
    rw [ih (addBucket ix k0 n cid) n cid key n' hnd']
    by_cases h1 : key ∈ rest ∧ n' = n
    · rw [if_pos h1, if_pos ⟨List.mem_cons_of_mem _ h1.1, h1.2⟩]
      have hne : ((key, n') : K × Nat) ≠ (k0, n) := by
        intro hc
        rw [Prod.mk.injEq] at hc
        exact hk0 (hc.1 ▸ h1.1)
      rw [addBucket, findA_setA_ne _ _ _ _ hne]
    · rw [if_neg h1]
      by_cases h2 : key = k0 ∧ n' = n
      · obtain ⟨rfl, rfl⟩ := h2
        rw [if_pos ⟨List.mem_cons_self _ _, rfl⟩, addBucket,
          findA_setA_self]
        simp
      · rw [if_neg (by
          rintro ⟨hmem, rfl⟩
          rcases List.mem_cons.mp hmem with rfl | hmem'
          · exact h2 ⟨rfl, rfl⟩
          · exact h1 ⟨hmem', rfl⟩)]
        have hne : ((key, n') : K × Nat) ≠ (k0, n) := by
          intro hc
          rw [Prod.mk.injEq] at hc
          exact h2 ⟨hc.1, hc.2⟩
        rw [addBucket, findA_setA_ne _ _ _ _ hne]

theorem record_cons_bucketOf {K : Type} [DecidableEq K] (st : KSMState K)
    (k : K) (ks : List K) (hnd : (k :: ks).Nodup) (key : K) (n' : Nat) :
    bucketOf (recordCanonicalKeys st (k :: ks)).2 key n' =
      if key ∈ k :: ks ∧ n' = ks.length + 1 then
        st.nextId :: bucketOf st key n'
      else bucketOf st key n' := by
  show (findA ((k :: ks).foldl
      (fun ix key => addBucket ix key (k :: ks).length st.nextId)
      st.index) (key, n')).getD [] = _
  rw [foldl_addBucket_findA (k :: ks) st.index (k :: ks).length st.nextId
    key n' hnd]
  rfl

theorem record_cons_findA {K : Type} [DecidableEq K] (st : KSMState K)
    (k : K) (ks : List K) (id : Nat) :
    findA (recordCanonicalKeys st (k :: ks)).2.keysOf id =
      if st.nextId = id then some (k :: ks) else findA st.keysOf id :=
  rfl

theorem wf_record_cons {K : Type} [DecidableEq K] (st : KSMState K)
    (hwf : WF st) (k : K) (ks : List K) (hnd : (k :: ks).Nodup)
    (hnofind : findCanonicalKeys st (k :: ks) = none) :
    WF (recordCanonicalKeys st (k :: ks)).2 := by
  have hnext' : (recordCanonicalKeys st (k :: ks)).2.nextId =
      st.nextId + 1 := rfl
  have hempty' : (recordCanonicalKeys st (k :: ks)).2.emptyCks =
      st.emptyCks := rfl
  have hnomatch : ∀ id l, findA st.keysOf id = some l →
      l.toFinset ≠ (k :: ks).toFinset := by
    intro id l hl hcontra
    have := (findCanonicalKeys_some_iff st hwf k ks hnd id).mpr
      ⟨l, hl, hcontra⟩
    rw [hnofind] at this
    cases this
  constructor
  · intro id l h
    rw [record_cons_findA] at h
    by_cases hc : st.nextId = id
    · rw [if_pos hc] at h
      cases h
      exact hnd
    · exact hwf.keys_nodup id l (by rwa [if_neg hc] at h)
  · intro id1 l1 id2 l2 h1 h2 hset
    rw [record_cons_findA] at h1 h2
    by_cases hc1 : st.nextId = id1 <;> by_cases hc2 : st.nextId = id2
    · omega
    · rw [if_pos hc1] at h1
      rw [if_neg hc2] at h2
      cases h1
      exact absurd hset.symm (hnomatch id2 l2 h2)
    · rw [if_neg hc1] at h1
      rw [if_pos hc2] at h2
      cases h2
      exact absurd hset (hnomatch id1 l1 h1)
    · rw [if_neg hc1] at h1
      rw [if_neg hc2] at h2
      exact hwf.distinct id1 l1 id2 l2 h1 h2 hset
  · intro key n id hmem
    rw [record_cons_bucketOf st k ks hnd] at hmem
    by_cases hcond : key ∈ k :: ks ∧ n = ks.length + 1
    · rw [if_pos hcond] at hmem
      rcases List.mem_cons.mp hmem with rfl | hold
      · refine ⟨k :: ks, ?_, hcond.1, by simp [hcond.2]⟩
        rw [record_cons_findA, if_pos rfl]
      · obtain ⟨l, hl, hkl, hlen⟩ := hwf.bucket_sound key n id hold
        have hne : st.nextId ≠ id := by
          intro hc
          exact absurd (hwf.fresh id l hl) (by omega)
        exact ⟨l, by rw [record_cons_findA, if_neg hne]; exact hl,
          hkl, hlen⟩
    · rw [if_neg hcond] at hmem
      obtain ⟨l, hl, hkl, hlen⟩ := hwf.bucket_sound key n id hmem
      have hne : st.nextId ≠ id := by
        intro hc
        exact absurd (hwf.fresh id l hl) (by omega)
      exact ⟨l, by rw [record_cons_findA, if_neg hne]; exact hl,
        hkl, hlen⟩
  · intro id l h key hkeyl
    rw [record_cons_findA] at h
    by_cases hc : st.nextId = id
    · rw [if_pos hc] at h
      cases h
      rw [record_cons_bucketOf st k ks hnd,
        if_pos ⟨hkeyl, by simp⟩]
      rw [← hc]
      exact List.mem_cons_self _ _
    · rw [if_neg hc] at h
      have hold := hwf.bucket_complete id l h key hkeyl
      rw [record_cons_bucketOf st k ks hnd]
      by_cases hcond : key ∈ k :: ks ∧ l.length = ks.length + 1
      · rw [if_pos hcond]
        exact List.mem_cons_of_mem _ hold
      · rw [if_neg hcond]
        exact hold
  · intro key n
    rw [record_cons_bucketOf st k ks hnd]
    by_cases hcond : key ∈ k :: ks ∧ n = ks.length + 1
    · rw [if_pos hcond, List.nodup_cons]
      refine ⟨fun hmem => ?_, hwf.bucket_nodup key n⟩
      obtain ⟨l, hl, _, _⟩ := hwf.bucket_sound key n st.nextId hmem
      exact absurd (hwf.fresh st.nextId l hl) (by omega)
    · rw [if_neg hcond]
      exact hwf.bucket_nodup key n
  · intro id l h
    rw [record_cons_findA] at h
    rw [hnext']
    by_cases hc : st.nextId = id
    · omega
    · rw [if_neg hc] at h
      have := hwf.fresh id l h
      omega
  · intro id h
    rw [record_cons_findA] at h
    rw [hempty']
    by_cases hc : st.nextId = id
    · rw [if_pos hc] at h
      cases h
    · rw [if_neg hc] at h
      exact hwf.empty_slot id h

/-- C6.  On a well-formed `KeySetMap`, `lookup` depends only on the
underlying set of its argument: for any `ks'` that is a permutation of
`ks` or repeats keys of `ks` (same `toFinset`), a `lookup(ks')` after a
`lookup(ks)` returns the very same `CanonicalKeys` entry (and hence the
same `TData`, which is attached to the entry once when it is recorded);
moreover at most one entry survives the size-indexed bucket intersection
used by `findCanonicalKeys`. -/
theorem keySetMap_lookup_set_invariance {K : Type} [DecidableEq K]
    (st : KSMState K) (hwf : WF st) (ks ks' : List K)
    (hset : ks.toFinset = ks'.toFinset) :
    (lookup (lookup st ks).2 ks').1 = (lookup st ks).1 ∧
    (∀ s : List K, s.Nodup → (intersectionOf st s).length ≤ 1) := by
  refine ⟨?_, fun s hnds => intersectionOf_length_le_one st hwf s hnds⟩
  unfold lookup
  have hnd1 := jsSet_nodup ks
  have hnd2 := jsSet_nodup ks'
  have hsets : (jsSet ks).toFinset = (jsSet ks').toFinset := by
    rw [jsSet_toFinset, jsSet_toFinset, hset]
  rcases hks : jsSet ks with _ | ⟨k, t⟩
  · have hks' : jsSet ks' = [] := by
      have hempty : (jsSet ks').toFinset = ∅ := by
        rw [← hsets, hks]
        simp
      cases hcase : jsSet ks' with
      | nil => rfl
      | cons a b =>
        rw [hcase] at hempty
        simp at hempty
    rw [hks']
    have hfind0 : findCanonicalKeys st ([] : List K) = st.emptyCks := rfl
    rcases hemp : st.emptyCks with _ | c
    · simp only [lookupSet, hfind0, hemp]
      simp only [recordCanonicalKeys, hemp]
      simp [findCanonicalKeys]
    · simp only [lookupSet, hfind0, hemp]
  · have hks'ne : jsSet ks' ≠ [] := by
      intro hc
      have : k ∈ (jsSet ks').toFinset := by
        rw [← hsets, hks]
        simp
      rw [hc] at this
      simp at this
    rcases hks' : jsSet ks' with _ | ⟨k', t'⟩
    · exact absurd hks' hks'ne
    rw [hks] at hnd1
    rw [hks'] at hnd2
    rw [hks, hks'] at hsets
    unfold lookupSet
    rcases hfind : findCanonicalKeys st (k :: t) with _ | id
    · -- record a fresh entry, then the second lookup finds it
      have hwf' := wf_record_cons st hwf k t hnd1 hfind
      have hfound : findCanonicalKeys (recordCanonicalKeys st (k :: t)).2
          (k' :: t') = some (recordCanonicalKeys st (k :: t)).1 := by
        rw [findCanonicalKeys_some_iff _ hwf' k' t' hnd2]
        refine ⟨k :: t, ?_, hsets⟩
        show findA (recordCanonicalKeys st (k :: t)).2.keysOf st.nextId =
          some (k :: t)
        rw [record_cons_findA, if_pos rfl]
      rw [hfound]
    · -- found: state unchanged, and the second lookup finds the same id
      obtain ⟨l, hl, hlset⟩ :=
        (findCanonicalKeys_some_iff st hwf k t hnd1 id).mp hfind
      have hfound : findCanonicalKeys st (k' :: t') = some id := by
        rw [findCanonicalKeys_some_iff st hwf k' t' hnd2]
        exact ⟨l, hl, hlset.trans hsets⟩
      rw [hfound]

/-- Witness for `keySetMap_lookup_set_invariance`: `{1, 2}` looked up as
`[1, 2]` and then as `[2, 1, 1]` on a fresh map. -/
theorem keySetMap_lookup_set_invariance_witness :
    (WF (KSMState.empty Nat) ∧
      ([1, 2] : List Nat).toFinset = ([2, 1, 1] : List Nat).toFinset) ∧
    (lookup (lookup (KSMState.empty Nat) [1, 2]).2 [2, 1, 1]).1 =
      (lookup (KSMState.empty Nat) [1, 2]).1 :=
  ⟨⟨wf_empty Nat, by decide⟩,
    (keySetMap_lookup_set_invariance (KSMState.empty Nat) (wf_empty Nat)
      [1, 2] [2, 1, 1] (by decide)).1⟩

end WryKeySetMap

/-! ## Canon (packages/canon/src: canon.ts, components.ts, handlers.ts)

The embedding covers `Canon.admit` for graphs of plain objects handled by
the built-in three-step plain-object handlers (`deconstruct` produces the
interned sorted-keys token followed by the values in sorted key order;
`allocate` creates an empty object; `repair` fills it in).  These are the
handlers every input of the claim's scenario uses.

* An input graph is a finite map from object ids to field lists; field
  names are modelled by naturals carrying the total order that
  `keys.sort()` uses, and the interned `keys.json` string by the sorted
  key list itself (`keysByJSON` makes json strings and sorted lists
  one-to-one).
* The pool `Trie` is keyed by trace arrays.  A trace entry is a
  prototype token, a primitive, an interned `numRef` back-reference, an
  already-canonical (known) object, or an interned child trace array.
  Because `node.trace || (node.trace = trace)` makes child trace arrays
  canonical pooled references, a child array is represented by its pool
  node id, so reference equality of the source's arrays coincides with
  equality of the model's entries.
* Fresh input objects are never members of the Canon's `known` WeakSet
  (only canonical arena objects are), so the `known.has(input)` fast
  paths on inputs are constantly false and the input/arena namespaces
  are kept separate.
* Every recursive function takes explicit fuel; the concrete theorems
  supply ample fuel, and exhausting fuel only produces the `none`
  abort marker. -/

namespace WryCanon

open WryHandlers (findA setA)

/-- A value stored in an input object's field: a primitive or a
reference to another input object. -/
inductive GVal where
  | prim (v : Int)
  | ref (r : Nat)
deriving DecidableEq, Repr

/-- An input object graph: `fields v` is the field list (insertion
order) of the object with id `v`; ids ≥ `size` are unused. -/
structure Graph where
  size : Nat
  fields : Nat → List (Nat × GVal)

/-- `keys.sort()` on the model's field names. -/
def sortKeys (l : List Nat) : List Nat :=
  l.insertionSort (fun a b => a ≤ b)

/-- One deconstructed child, as produced by the plain-object handler:
the `keys.json` token, then each value. -/
inductive Child where
  | keysJson (ks : List Nat)
  | prim (v : Int)
  | ref (r : Nat)
deriving DecidableEq, Repr

def getFieldG (fields : List (Nat × GVal)) (k : Nat) : GVal :=
  match findA fields k with
  | some v => v
  | none => .prim 0

/-- The built-in plain-object `deconstruct`: the interned sorted-keys
token followed by the values in sorted key order. -/
def deconstructG (G : Graph) (v : Nat) : List Child :=
  let sorted := sortKeys ((G.fields v).map Prod.fst)
  .keysJson sorted :: sorted.map (fun k =>
    match getFieldG (G.fields v) k with
    | .prim p => Child.prim p
    | .ref r => Child.ref r)

/-- Per-input metadata (`Info`): DFS order, deconstructed children, and
the strongly connected component, assigned when the component is
finalized. -/
structure NodeInfo where
  order : Nat
  children : List Child
  comp : Option Nat
deriving DecidableEq, Repr

/-- The state of `buildComponentInfoMap`'s depth-first scan.  Both
stacks grow at the head; `comps` collects finalized components (their
`asArray` in source order) so that components appear leaves-first and a
component's id is its index in `comps`. -/
structure BuildState where
  infoMap : List (Nat × NodeInfo)
  nextOrder : Nat
  rootStack : List Nat
  compStack : List Nat
  comps : List (List Nat)
deriving Repr

/-- Pop rootStack entries whose order is greater than `ord` (the cycle
branch of `depthFirstScan`). -/
def popGreater (infoMap : List (Nat × NodeInfo)) (ord : Nat) :
    List Nat → List Nat
  | [] => []
  | v :: rest =>
    match findA infoMap v with
    | some info =>
      if ord < info.order then popGreater infoMap ord rest else v :: rest
    | none => v :: rest

/-- The prefix of the (head-grown) compStack up to and including `v`:
these are exactly the entries the source's
`compStack.splice(compStack.lastIndexOf(v))` removes. -/
def takeThrough (v : Nat) : List Nat → List Nat
  | [] => []
  | x :: rest => if x = v then [x] else x :: takeThrough v rest

/-- The remainder of the compStack after removing `takeThrough v`. -/
def dropThrough (v : Nat) : List Nat → List Nat
  | [] => []
  | x :: rest => if x = v then rest else dropThrough v rest

/-- Assign the finalized component id to every member. -/
def assignComp (cid : Nat) (members : List Nat)
    (infoMap : List (Nat × NodeInfo)) : List (Nat × NodeInfo) :=
  members.foldl (fun m v =>
    match findA m v with
    | some info => setA m v { info with comp := some cid }
    | none => m) infoMap

mutual

/-- `depthFirstScan` from components.ts (the canon version): assign
orders, keep the root/component stacks, and finalize a strongly
connected component when the recursion unwinds to its root.  Children
that are primitives are already canonical and terminate the recursion
immediately, so only object references are scanned. -/
def dfs (G : Graph) : Nat → Nat → BuildState → BuildState
  | 0, _, st => st
  | fuel + 1, v, st =>
    match findA st.infoMap v with
    | some info =>
      match info.comp with
      | none =>
        { st with rootStack := popGreater st.infoMap info.order st.rootStack }
      | some _ => st
    | none =>
      let children := deconstructG G v
      let info : NodeInfo :=
        { order := st.nextOrder, children := children, comp := none }
      let st1 : BuildState :=
        { st with
            infoMap := setA st.infoMap v info
            nextOrder := st.nextOrder + 1
            rootStack := v :: st.rootStack
            compStack := v :: st.compStack }
      let st2 := dfsChildren G fuel children st1
      if st2.rootStack.head? = some v then
        let members := (takeThrough v st2.compStack).reverse
        { st2 with
            rootStack := st2.rootStack.tail
            compStack := dropThrough v st2.compStack
            comps := st2.comps ++ [members]
            infoMap := assignComp st2.comps.length members st2.infoMap }
      else st2

def dfsChildren (G : Graph) : Nat → List Child → BuildState → BuildState
  | 0, _, st => st
  | _ + 1, [], st => st
  | fuel + 1, c :: rest, st =>
    let st' := match c with
      | .ref w => dfs G fuel w st
      | _ => st
    dfsChildren G fuel rest st'

end

/-- `buildComponentInfoMap(value, canon)`. -/
def buildComponentInfoMap (G : Graph) (fuel : Nat) (root : Nat) :
    BuildState :=
  dfs G fuel root
    { infoMap := [], nextOrder := 1, rootStack := [], compStack := [],
      comps := [] }

/-- One entry of a pooled trace array: the shared plain-object
prototype, a primitive child, the interned sorted-keys token, a `numRef`
back-reference, an already-canonical (known) object, or an interned
child trace array identified by its pool node id. -/
inductive TraceV where
  | protoObj
  | prim (v : Int)
  | keysJson (ks : List Nat)
  | numref (n : Nat)
  | known (kid : Nat)
  | tr (nid : Nat)
deriving DecidableEq, Repr

/-- A field value of a canonical (arena) object: a primitive or a
reference to another canonical object. -/
inductive KVal where
  | prim (v : Int)
  | kref (k : Nat)
deriving DecidableEq, Repr

/-- The per-Canon mutable state: the pool `Trie` keyed by trace arrays
(`poolKeys` assigns each distinct trace array its pool node id),
`nodeTrace` marks pool nodes whose `node.trace` has been set,
`nodeKnown` is the pool node's `known` property, `arena` holds the
canonical objects the Canon has allocated (their ids are the model of
canonical references), and `knownSet` is the `known` WeakSet of frozen,
admitted canonical objects. -/
structure CanonState where
  poolKeys : List (List TraceV × Nat)
  nextPoolId : Nat
  nodeTrace : List Nat
  nodeKnown : List (Nat × Nat)
  arena : List (Nat × List (Nat × KVal))
  nextArena : Nat
  knownSet : List Nat
deriving DecidableEq, Repr

def CanonState.empty : CanonState :=
  { poolKeys := [], nextPoolId := 0, nodeTrace := [], nodeKnown := [],
    arena := [], nextArena := 0, knownSet := [] }

/-- `this.pool.lookupArray(trace)`: intern a trace array, returning its
pool node id. -/
def poolLookup (cs : CanonState) (key : List TraceV) : Nat × CanonState :=
  match findA cs.poolKeys key with
  | some nid => (nid, cs)
  | none =>
    (cs.nextPoolId,
      { cs with
          poolKeys := setA cs.poolKeys key cs.nextPoolId
          nextPoolId := cs.nextPoolId + 1 })

/-- The per-`admit` state: the Canon's state plus the freshly built
component info map, the mutable `info.known` / `info.nodes` properties,
and the per-component `partitioned` flags. -/
structure AdmitState where
  canon : CanonState
  infoMap : List (Nat × NodeInfo)
  comps : List (List Nat)
  infoKnown : List (Nat × Nat)
  infoNodes : List (Nat × List Nat)
  partitioned : List (Nat × Bool)
deriving Repr

/-- The depth-first scan state inside `lookupNode`: `seenLabels` (keyed
by the input's label — a pool node when relabelled, the input itself
otherwise) and the `traces` array, whose slot is reserved before the
children are scanned and filled afterwards. -/
structure ScanSt where
  seen : List ((Nat ⊕ Nat) × Nat)
  traces : List (Option TraceV)
deriving Repr

def setIdx {α : Type} : List α → Nat → α → List α
  | [], _, _ => []
  | _ :: rest, 0, a => a :: rest
  | x :: rest, n + 1, a => x :: setIdx rest n a

/-- A request to one of the mutually recursive `Canon` methods
(`getKnown`, `lookupNode`, the `scan` closures, `partitionBySteps` with
its relabelling loop, `forEachUnknown`/allocation, and `repair`).  The
methods are mutually recursive through a shared fuel parameter; they
are embedded as one fuel-structural interpreter `canonRun` over this
request type, with one wrapper per source method below. -/
inductive CanonReq where
  | getKnown (ast : AdmitState) (input : Nat)
  | lookupNode (ast : AdmitState) (labels : List (Nat × Nat)) (root : Nat)
  | scanT (ast : AdmitState) (s : ScanSt) (labels : List (Nat × Nat))
      (rootCid : Nat) (input : Nat)
  | scanChildren (ast : AdmitState) (s : ScanSt)
      (labels : List (Nat × Nat)) (rootCid : Nat) (cs : List Child)
  | partitionBySteps (ast : AdmitState) (cid : Nat)
  | partitionLoop (ast : AdmitState) (comp : List Nat)
      (nodesByInput : List (Nat × Nat)) (expectedNodeCount : Nat)
  | partitionPass (ast : AdmitState) (comp : List Nat)
      (nodesByInput : List (Nat × Nat)) (seenNodes : List Nat)
      (nextNBI : List (Nat × Nat))
  | assignKnowns (ast : AdmitState) (inputs : List Nat) (acc : List Nat)
  | repairSteps (ast : AdmitState) (threeSteps : List Nat)
  | repairGo (ast : AdmitState) (threeSteps : List Nat)
      (repaired : List Nat)
  | repairChildren (ast : AdmitState) (cs : List Child)

/-- The result of a `CanonReq`, one constructor per result shape. -/
inductive CanonRes where
  | optNat (r : Option Nat × AdmitState)
  | scan (r : Option TraceV × AdmitState × ScanSt)
  | scans (r : Option (List TraceV) × AdmitState × ScanSt)
  | steps (r : List Nat × AdmitState)
  | state (r : AdmitState)
  | pass (r : Bool × List Nat × List (Nat × Nat) × AdmitState)
  | kvals (r : List KVal × AdmitState)

/-- A throwaway `AdmitState`, used only for the unreachable projection
defaults of `CanonRes`. -/
def dfltAst : AdmitState :=
  { canon := CanonState.empty, infoMap := [], comps := [],
    infoKnown := [], infoNodes := [], partitioned := [] }

def CanonRes.asOptNat : CanonRes → Option Nat × AdmitState
  | .optNat r => r
  | _ => (none, dfltAst)

def CanonRes.asScan : CanonRes → Option TraceV × AdmitState × ScanSt
  | .scan r => r
  | _ => (none, dfltAst, ⟨[], []⟩)

def CanonRes.asScans : CanonRes → Option (List TraceV) × AdmitState × ScanSt
  | .scans r => r
  | _ => (none, dfltAst, ⟨[], []⟩)

def CanonRes.asSteps : CanonRes → List Nat × AdmitState
  | .steps r => r
  | _ => ([], dfltAst)

def CanonRes.asState : CanonRes → AdmitState
  | .state r => r
  | _ => dfltAst

def CanonRes.asPass : CanonRes → Bool × List Nat × List (Nat × Nat) × AdmitState
  | .pass r => r
  | _ => (false, [], [], dfltAst)

def CanonRes.asKVals : CanonRes → List KVal × AdmitState
  | .kvals r => r
  | _ => ([], dfltAst)

/-- The interpreter for the mutually recursive `Canon` methods; each
branch of the fuel-positive case is the body of the corresponding
source method (see the wrappers below for the method-by-method
documentation).  Fuel 0 models exhaustion. -/
def canonRun (G : Graph) : Nat → CanonReq → CanonRes
  | 0, req =>
    match req with
    | .getKnown ast _ => .optNat (none, ast)
    | .lookupNode ast _ _ => .optNat (none, ast)
    | .scanT ast s _ _ _ => .scan (none, ast, s)
    | .scanChildren ast s _ _ _ => .scans (none, ast, s)
    | .partitionBySteps ast _ => .steps ([], ast)
    | .partitionLoop ast _ _ _ => .state ast
    | .partitionPass ast _ _ seenNodes nextNBI =>
      .pass (false, seenNodes, nextNBI, ast)
    | .assignKnowns ast _ acc => .steps (acc, ast)
    | .repairSteps ast _ => .state ast
    | .repairGo ast _ _ => .state ast
    | .repairChildren ast _ => .kvals ([], ast)
  | fuel + 1, req =>
    match req with
    | .getKnown ast input =>
      match findA ast.infoMap input with
      | none => .optNat (none, ast)
      | some info =>
        match findA ast.infoKnown input with
        | some k => .optNat (some k, ast)
        | none =>
          match (canonRun G fuel (.lookupNode ast [] input)).asOptNat with
          | (none, ast1) => .optNat (none, ast1)
          | (some nid, ast1) =>
            match findA ast1.canon.nodeKnown nid with
            | some k =>
              .optNat (some k,
                { ast1 with infoKnown := setA ast1.infoKnown input k })
            | none =>
              match info.comp with
              | none => .optNat (none, ast1)
              | some cid =>
                let r1 :=
                  (canonRun G fuel (.partitionBySteps ast1 cid)).asSteps
                let ast2 := if r1.1.isEmpty then r1.2
                  else (canonRun G fuel (.repairSteps r1.2 r1.1)).asState
                match findA ast2.infoKnown input with
                | some k => .optNat (some k, ast2)
                | none => .optNat (none, ast2)
    | .lookupNode ast labels root =>
      match findA ast.infoMap root with
      | none => .optNat (none, ast)
      | some rootInfo =>
        match rootInfo.comp with
        | none => .optNat (none, ast)
        | some rootCid =>
          match (canonRun G fuel
              (.scanT ast ⟨[], []⟩ labels rootCid root)).asScan with
          | (none, ast1, _) => .optNat (none, ast1)
          | (some _, ast1, s1) =>
            let tracesArr := s1.traces.map (fun o => o.getD (.numref 0))
            let r2 := poolLookup ast1.canon tracesArr
            let ast2 := { ast1 with canon := r2.2 }
            let nodes := (findA ast2.infoNodes root).getD []
            let nodes' := if r2.1 ∈ nodes then nodes else nodes ++ [r2.1]
            .optNat (some r2.1,
              { ast2 with infoNodes := setA ast2.infoNodes root nodes' })
    | .scanT ast s labels rootCid input =>
      match findA ast.infoMap input with
      | none => .scan (none, ast, s)
      | some info =>
        let label : Nat ⊕ Nat :=
          match findA labels input with
          | some nid => .inl nid
          | none => .inr input
        match findA s.seen label with
        | some idx => .scan (some (.numref idx), ast, s)
        | none =>
          let idx := s.traces.length
          let s1 : ScanSt :=
            { seen := setA s.seen label idx, traces := s.traces ++ [none] }
          match (canonRun G fuel
              (.scanChildren ast s1 labels rootCid info.children)).asScans with
          | (none, ast2, s2) => .scan (none, ast2, s2)
          | (some ents, ast2, s2) =>
            let trace := TraceV.protoObj :: ents
            let r3 := poolLookup ast2.canon trace
            let c4 := { r3.2 with
              nodeTrace := if r3.1 ∈ r3.2.nodeTrace then r3.2.nodeTrace
                else r3.1 :: r3.2.nodeTrace }
            let s3 : ScanSt :=
              { s2 with traces := setIdx s2.traces idx (some (.tr r3.1)) }
            .scan (some (.tr r3.1), { ast2 with canon := c4 }, s3)
    | .scanChildren ast s labels rootCid cs =>
      match cs with
      | [] => .scans (some [], ast, s)
      | c :: rest =>
        let r1 : Option TraceV × AdmitState × ScanSt :=
          match c with
          | .keysJson ks => (some (.keysJson ks), ast, s)
          | .prim p => (some (.prim p), ast, s)
          | .ref r =>
            let inComp : Bool :=
              match findA ast.infoMap r with
              | some i => decide (i.comp = some rootCid)
              | none => false
            if inComp then
              (canonRun G fuel (.scanT ast s labels rootCid r)).asScan
            else
              match (canonRun G fuel (.getKnown ast r)).asOptNat with
              | (some k, ast') => (some (.known k), ast', s)
              | (none, ast') => (none, ast', s)
        match r1 with
        | (none, ast', s') => .scans (none, ast', s')
        | (some ent, ast', s') =>
          match (canonRun G fuel
              (.scanChildren ast' s' labels rootCid rest)).asScans with
          | (none, ast'', s'') => .scans (none, ast'', s'')
          | (some ents, ast'', s'') => .scans (some (ent :: ents), ast'', s'')
    | .partitionBySteps ast cid =>
      match findA ast.partitioned cid with
      | some _ => .steps ([], ast)
      | none =>
        let ast0 := { ast with partitioned := setA ast.partitioned cid false }
        let comp := (ast0.comps.get? cid).getD []
        let ast1 := (canonRun G fuel
          (.partitionLoop ast0 comp [] comp.length)).asState
        let r2 := (canonRun G fuel (.assignKnowns ast1 comp [])).asSteps
        .steps (r2.1,
          { r2.2 with partitioned := setA r2.2.partitioned cid true })
    | .partitionLoop ast comp nodesByInput expectedNodeCount =>
      match (canonRun G fuel
          (.partitionPass ast comp nodesByInput [] [])).asPass with
      | (alreadyCanonized, seenNodes, nextNodesByInput, ast1) =>
        if alreadyCanonized ∨
            (seenNodes.length = expectedNodeCount ∧
              nextNodesByInput.isEmpty) then
          .state ast1
        else
          canonRun G fuel (.partitionLoop ast1 comp
            (nextNodesByInput.foldl (fun m kv => setA m kv.1 kv.2)
              nodesByInput)
            seenNodes.length)
    | .partitionPass ast comp nodesByInput seenNodes nextNBI =>
      match comp with
      | [] => .pass (false, seenNodes, nextNBI, ast)
      | input :: rest =>
        match (canonRun G fuel
            (.lookupNode ast nodesByInput input)).asOptNat with
        | (none, ast1) =>
          canonRun G fuel
            (.partitionPass ast1 rest nodesByInput seenNodes nextNBI)
        | (some nid, ast1) =>
          match findA ast1.canon.nodeKnown nid with
          | some _ => .pass (true, seenNodes, nextNBI, ast1)
          | none =>
            let seen' := if nid ∈ seenNodes then seenNodes
              else seenNodes ++ [nid]
            let next' := if findA nodesByInput input = some nid then nextNBI
              else setA nextNBI input nid
            canonRun G fuel (.partitionPass ast1 rest nodesByInput seen' next')
    | .assignKnowns ast inputs acc =>
      match inputs with
      | [] => .steps (acc, ast)
      | input :: rest =>
        match findA ast.infoMap input with
        | none => canonRun G fuel (.assignKnowns ast rest acc)
        | some _ =>
          match findA ast.infoKnown input with
          | some _ => canonRun G fuel (.assignKnowns ast rest acc)
          | none =>
            let nodes := (findA ast.infoNodes input).getD []
            let knownOpt := nodes.foldl (fun acc2 nid =>
              match acc2 with
              | some k => some k
              | none => findA ast.canon.nodeKnown nid) none
            match knownOpt with
            | some k =>
              let unknownNodes := nodes.filter
                (fun nid => (findA ast.canon.nodeKnown nid).isNone)
              let canon' := { ast.canon with
                nodeKnown := unknownNodes.foldl
                  (fun m nid => setA m nid k) ast.canon.nodeKnown }
              canonRun G fuel (.assignKnowns
                { ast with
                    canon := canon'
                    infoKnown := setA ast.infoKnown input k } rest acc)
            | none =>
              let a := ast.canon.nextArena
              let canon1 := { ast.canon with
                arena := setA ast.canon.arena a []
                nextArena := a + 1 }
              let unknownNodes := nodes.filter
                (fun nid => (findA canon1.nodeKnown nid).isNone)
              let canon2 := { canon1 with
                nodeKnown := unknownNodes.foldl
                  (fun m nid => setA m nid a) canon1.nodeKnown }
              canonRun G fuel (.assignKnowns
                { ast with
                    canon := canon2
                    infoKnown := setA ast.infoKnown input a }
                rest (acc ++ [input]))
    | .repairSteps ast threeSteps =>
      canonRun G fuel (.repairGo ast threeSteps [])
    | .repairGo ast threeSteps repaired =>
      match threeSteps with
      | [] => .state ast
      | input :: rest =>
        match findA ast.infoMap input, findA ast.infoKnown input with
        | some info, some k =>
          if k ∈ repaired then canonRun G fuel (.repairGo ast rest repaired)
          else
            let r1 := (canonRun G fuel (.repairChildren ast info.children)).asKVals
            let fields :=
              match info.children with
              | .keysJson ks :: _ => ks.zip r1.1
              | _ => []
            let canon' := { r1.2.canon with
              arena := setA r1.2.canon.arena k fields
              knownSet := k :: r1.2.canon.knownSet }
            canonRun G fuel
              (.repairGo { r1.2 with canon := canon' } rest (k :: repaired))
        | _, _ => canonRun G fuel (.repairGo ast rest repaired)
    | .repairChildren ast cs =>
      match cs with
      | [] => .kvals ([], ast)
      | c :: rest =>
        match c with
        | .keysJson _ => canonRun G fuel (.repairChildren ast rest)
        | .prim p =>
          let r := (canonRun G fuel (.repairChildren ast rest)).asKVals
          .kvals (KVal.prim p :: r.1, r.2)
        | .ref child =>
          match (canonRun G fuel (.getKnown ast child)).asOptNat with
          | (some k, ast') =>
            let r := (canonRun G fuel (.repairChildren ast' rest)).asKVals
            .kvals (KVal.kref k :: r.1, r.2)
          | (none, ast') =>
            let r := (canonRun G fuel (.repairChildren ast' rest)).asKVals
            .kvals (KVal.prim 0 :: r.1, r.2)

/-- `Canon.getKnown(input, infoMap)`: return the canonical object for an
input, looking up the pooled node first and running
`partitionBySteps`/`repair` on the input's component when the node has
no known object yet.  `none` models the passthrough/error paths (opaque
input, or fuel exhaustion). -/
def getKnown (G : Graph) (fuel : Nat) (ast : AdmitState) (input : Nat) :
    Option Nat × AdmitState :=
  (canonRun G fuel (.getKnown ast input)).asOptNat

/-- `Canon.lookupNode(root, infoMap, labels?)`: run the depth-first scan
from `root`, intern the resulting traces array in the pool, and record
the node in `rootInfo.nodes`. -/
def lookupNode (G : Graph) (fuel : Nat) (ast : AdmitState)
    (labels : List (Nat × Nat)) (root : Nat) : Option Nat × AdmitState :=
  (canonRun G fuel (.lookupNode ast labels root)).asOptNat

/-- The inner `scan(input)` closure of `lookupNode`: back-reference via
`numRef` when the input's label has been seen, otherwise reserve the
next trace index, scan the children, and intern the child trace array
(`node.trace || (node.trace = trace)`). -/
def scanT (G : Graph) (fuel : Nat) (ast : AdmitState) (s : ScanSt)
    (labels : List (Nat × Nat)) (rootCid input : Nat) :
    Option TraceV × AdmitState × ScanSt :=
  (canonRun G fuel (.scanT ast s labels rootCid input)).asScan

/-- The `info.children.forEach` loop of the scan: primitives (including
the sorted-keys token) enter the trace directly; a child in the root's
component is scanned recursively; any other object child is resolved to
its canonical form via `getKnown`. -/
def scanChildren (G : Graph) (fuel : Nat) (ast : AdmitState) (s : ScanSt)
    (labels : List (Nat × Nat)) (rootCid : Nat) (cs : List Child) :
    Option (List TraceV) × AdmitState × ScanSt :=
  (canonRun G fuel (.scanChildren ast s labels rootCid cs)).asScans

/-- `Canon.partitionBySteps(component, infoMap)`: only the first caller
partitions a component; the relabelling loop re-scans the component
until the set of pooled nodes stabilizes (or some node is already
canonized), after which the unknown inputs are allocated and queued for
repair.  The built-in plain-object handlers are three-step, so the
`twoSteps`/`reconstruct` list is always empty here. -/
def partitionBySteps (G : Graph) (fuel : Nat) (ast : AdmitState)
    (cid : Nat) : List Nat × AdmitState :=
  (canonRun G fuel (.partitionBySteps ast cid)).asSteps

/-- The `while (true)` relabelling loop of `partitionBySteps`. -/
def partitionLoop (G : Graph) (fuel : Nat) (ast : AdmitState)
    (comp : List Nat) (nodesByInput : List (Nat × Nat))
    (expectedNodeCount : Nat) : AdmitState :=
  (canonRun G fuel
    (.partitionLoop ast comp nodesByInput expectedNodeCount)).asState

/-- One `component.asArray.some` pass of the relabelling loop, with the
early exit when a node is already known. -/
def partitionPass (G : Graph) (fuel : Nat) (ast : AdmitState)
    (comp : List Nat) (nodesByInput : List (Nat × Nat))
    (seenNodes : List Nat) (nextNBI : List (Nat × Nat)) :
    Bool × List Nat × List (Nat × Nat) × AdmitState :=
  (canonRun G fuel
    (.partitionPass ast comp nodesByInput seenNodes nextNBI)).asPass

/-- `forEachUnknown` combined with the allocation callback: inputs
whose nodes already carry a known object adopt it; otherwise a fresh
empty object is allocated (`handlers.allocate`) and the input queued in
`threeSteps`; every still-unknown node then adopts the chosen known. -/
def assignKnowns (G : Graph) (fuel : Nat) (ast : AdmitState)
    (inputs : List Nat) (acc : List Nat) : List Nat × AdmitState :=
  (canonRun G fuel (.assignKnowns ast inputs acc)).asSteps

/-- `Canon.repair(threeSteps, infoMap)`: for each queued input whose
known object is not in the local `repaired` set yet, fill the empty
allocated object with the canonical children (`handlers.repair` of the
plain-object handler assigns the values under the sorted keys recorded
in `children[0]`), freeze it, and admit it into the known set. -/
def repairSteps (G : Graph) (fuel : Nat) (ast : AdmitState)
    (threeSteps : List Nat) : AdmitState :=
  (canonRun G fuel (.repairSteps ast threeSteps)).asState

/-- The `threeSteps.forEach` loop of `repair`, carrying the local
`repaired` set. -/
def repairGo (G : Graph) (fuel : Nat) (ast : AdmitState)
    (threeSteps : List Nat) (repaired : List Nat) : AdmitState :=
  (canonRun G fuel (.repairGo ast threeSteps repaired)).asState

/-- `info.children.map(child => this.getKnown(child, infoMap))`,
dropping the leading keys token (which `repair` reads from
`children[0]`) and producing the canonical field values. -/
def repairChildren (G : Graph) (fuel : Nat) (ast : AdmitState)
    (cs : List Child) : List KVal × AdmitState :=
  (canonRun G fuel (.repairChildren ast cs)).asKVals

/-- `Canon.admit(value)` for an object-valued input: build the
component info map and resolve the root's known canonical object. -/
def admitValue (cs : CanonState) (G : Graph) (fuel : Nat) (root : Nat) :
    Option Nat × CanonState :=
  let bm := buildComponentInfoMap G fuel root
  let ast : AdmitState :=
    { canon := cs, infoMap := bm.infoMap, comps := bm.comps,
      infoKnown := [], infoNodes := [], partitioned := [] }
  let r := getKnown G fuel ast root
  (r.1, r.2.canon)

mutual

/-- The DeepEquality engine (equality/src/checker.ts) applied to two
objects of an input graph.  Distinct graph nodes share the
`[object Object]` tag; the `comparisons` pair-cache returns the stored
verdict on a repeat encounter and provisionally stores `true` while a
pair is in progress, which is what lets cyclic graphs compare equal.
Graph objects have no `undefined`-valued fields, so `definedKeys` is
just the key list. -/
def equalG (G : Graph) : Nat → List ((Nat × Nat) × Bool) → Nat → Nat →
    Bool × List ((Nat × Nat) × Bool)
  | 0, cache, _, _ => (false, cache)
  | fuel + 1, cache, a, b =>
    if a = b then (true, cache)
    else
      match findA cache (a, b) with
      | some e => (e, cache)
      | none =>
        let cache1 := setA cache (a, b) true
        let ka := (G.fields a).map Prod.fst
        let kb := (G.fields b).map Prod.fst
        if ka.length ≠ kb.length then (false, setA cache1 (a, b) false)
        else if ¬(ka.all fun k => k ∈ kb) then
          (false, setA cache1 (a, b) false)
        else
          let r := equalFieldsG G fuel cache1 a b ka
          (r.1, setA r.2 (a, b) r.1)

/-- The pairwise child comparison loop of `checkObjects`: numbers by
value, objects recursively, mismatched tags unequal. -/
def equalFieldsG (G : Graph) : Nat → List ((Nat × Nat) × Bool) → Nat →
    Nat → List Nat → Bool × List ((Nat × Nat) × Bool)
  | 0, cache, _, _, _ => (false, cache)
  | _ + 1, cache, _, _, [] => (true, cache)
  | fuel + 1, cache, a, b, k :: ks =>
    let r1 : Bool × List ((Nat × Nat) × Bool) :=
      match getFieldG (G.fields a) k, getFieldG (G.fields b) k with
      | .prim p, .prim q => (decide (p = q), cache)
      | .ref x, .ref y => equalG G fuel cache x y
      | _, _ => (false, cache)
    if r1.1 then equalFieldsG G fuel r1.2 a b ks
    else (false, r1.2)

end

/-- The symmetric cross-referencing pair from the claim (and from the
repository's own canon test): object 0 is `a = {other: b, self: a}` and
object 1 is `b = {other: a, self: b}` (field name 0 is `other`, 1 is
`self`). -/
def symPairG : Graph :=
  { size := 2,
    fields := fun v =>
      if v = 0 then [(0, .ref 1), (1, .ref 0)]
      else if v = 1 then [(0, .ref 0), (1, .ref 1)]
      else [] }

/-- Two disjoint graphs that are deeply equal per the handlers but not
isomorphic: object 0 is `x = {l: x, r: x}`, and objects 1 and 2 form
`y1 = {l: y1, r: y2}`, `y2 = {l: y1, r: y1}` (field name 0 is `l`, 1 is
`r`).  Every node unfolds to the same infinite tree, so the DeepEquality
engine equates `x` and `y1`. -/
def bisimG : Graph :=
  { size := 3,
    fields := fun v =>
      if v = 0 then [(0, .ref 0), (1, .ref 0)]
      else if v = 1 then [(0, .ref 1), (1, .ref 2)]
      else if v = 2 then [(0, .ref 1), (1, .ref 1)]
      else [] }

/-- C1 (counterexample).  The plain objects `x` and `y1` of `bisimG`
are deeply equal per the registered handlers (the DeepEquality engine
returns `true` for them, via its cyclic-reference pair cache), both are
handler-covered plain objects, and neither input object is reused after
admission (the two graphs are disjoint); yet `admit(x)` and `admit(y1)`
return distinct references (arena objects 0 and 1): the relabelling
fixpoint of `partitionBySteps` separates bisimilar inputs whose scan
traces never coincide, so deep equality does not imply
`admit(a) === admit(b)`. -/
theorem canon_admit_bisimilar_counterexample :
    (equalG bisimG 20 [] 0 1).1 = true ∧
    (admitValue CanonState.empty bisimG 12 0).1 = some 0 ∧
    (admitValue (admitValue CanonState.empty bisimG 12 0).2 bisimG 12 1).1 = some 1 ∧
    (admitValue (admitValue CanonState.empty bisimG 12 0).2 bisimG 12 1).1 ≠
      (admitValue CanonState.empty bisimG 12 0).1 := by
  decide

/-- The admission state at the start of `Canon.admit(b)` for the second
member of the symmetric pair, after `a` has been admitted: the canon
state produced by the first admission together with the component info
map built for input 1. -/
def symAdmitState : AdmitState :=
  { canon := (admitValue CanonState.empty symPairG 12 0).2,
    infoMap := (buildComponentInfoMap symPairG 12 1).infoMap,
    comps := (buildComponentInfoMap symPairG 12 1).comps,
    infoKnown := [], infoNodes := [], partitioned := [] }

/-- C1 (amended).  `admit` returns the identical reference for inputs
whose canonical scans coincide, not for all deeply-equal inputs.
First: for the symmetric pair `a = {other: b, self: a}`,
`b = {other: a, self: b}`, admitting `a` and then `b` yields the same
canonical reference (arena object 0) — their scan traces are literally
equal, so the pool `Trie` interns them to the same node.  Second, the
collapsing mechanism in general: whenever `lookupNode` resolves an
un-admitted input (present in the info map, not yet known) to a pooled
node that already carries a known canonical object, `getKnown` returns
exactly that previously admitted object. -/
theorem canon_admit_pool_reuse_and_symmetric_pair :
    ((admitValue CanonState.empty symPairG 12 0).1 = some 0 ∧
      (admitValue (admitValue CanonState.empty symPairG 12 0).2 symPairG 12 1).1 =
        some 0) ∧
    (∀ (G : Graph) (fuel : Nat) (ast : AdmitState) (input nid k : Nat),
      (findA ast.infoMap input).isSome = true →
      findA ast.infoKnown input = none →
      (lookupNode G fuel ast [] input).1 = some nid →
      findA (lookupNode G fuel ast [] input).2.canon.nodeKnown nid =
        some k →
      (getKnown G (fuel + 1) ast input).1 = some k) := by
  refine ⟨⟨by decide, by decide⟩, ?_⟩
  intro G fuel ast input nid k h1 h2 h3 h4
  rcases hi : findA ast.infoMap input with _ | info
  · rw [hi] at h1; simp at h1
  · have hr : lookupNode G fuel ast [] input
        = (canonRun G fuel (.lookupNode ast [] input)).asOptNat := rfl
    rcases he : (canonRun G fuel (.lookupNode ast [] input)).asOptNat
      with ⟨o, ast1⟩
    rw [hr, he] at h3 h4
    simp only at h3 h4
    subst h3
    show (canonRun G (fuel + 1) (.getKnown ast input)).asOptNat.1 = some k
    rw [canonRun]
    simp only [hi, h2, he]
    simp only [h4]
    rfl

/-- On the state reached after admitting the first member of the
symmetric pair, the pool-reuse branch fires concretely for input 1:
its scan resolves to pooled node 2, which already knows canonical
object 0, and `getKnown` returns it. -/
theorem canon_admit_pool_reuse_and_symmetric_pair_witness :
    (findA symAdmitState.infoMap 1).isSome = true ∧
    findA symAdmitState.infoKnown 1 = none ∧
    (lookupNode symPairG 11 symAdmitState [] 1).1 = some 2 ∧
    (getKnown symPairG 12 symAdmitState 1).1 = some 0 :=
  ⟨by decide, by decide, by decide,
    canon_admit_pool_reuse_and_symmetric_pair.2 symPairG 11 symAdmitState
      1 2 0 (by decide) (by decide) (by decide) (by decide)⟩

end WryCanon
